import Mathlib

/-!
# Verification of the GAIA chat client's branch/streaming core

Shallow embedding of the branch/version tree, the streaming session
machinery, the request arbiter and the chat store of the GAIA chat
front-end (`src/unnamed/part_000`), together with proofs settling the
frozen claims C1..C10.

Conventions of the embedding:
* JS arrays become `List`, array indices become `Nat`.
* A JS field that may be `undefined` becomes an `Option`.
* JS string truthiness (`s || d`) becomes `if s = "" then d else s`.
* DOM rendering is modelled as the list of `addMessage` calls
  (slot, rendered index, message); timestamps and CSS are omitted.
-/

namespace Gaia

/-- A chat message as stored in `chat.history`.  Mirrors the fields used
by the branch/render logic; `time`, `meta` and DOM-only flags are
omitted as they do not influence any claim. -/
structure Message where
  role : String
  content : String
  branch_of : Option Nat := none
  branch_version : Option Nat := none
  edited : Bool := false
  editedFrom : Option Nat := none
  deriving Repr, DecidableEq

/-- The per-chat branch state `{anchor, active, total}`. -/
structure Branch where
  anchor : Nat
  active : Nat
  total : Nat
  deriving Repr, DecidableEq

/-- A stored chat record (`{id, name, history, ...}`); fields not used
by `updateChat` are omitted. -/
structure Chat where
  id : String
  name : String
  history : List Message := []
  deriving Repr, DecidableEq

/-- `updateChat` from the store layer:
`const all = loadAll(); const i = all.findIndex(x => x.id === ch.id);
if (i>=0){ all[i] = ch; saveAll(all); }` — replace the first record whose
id matches, otherwise leave the persisted list untouched. -/
def updateChat : List Chat → Chat → List Chat
  | [], _ => []
  | c :: rest, ch => if c.id = ch.id then ch :: rest else c :: updateChat rest ch

/-- Branch-state update performed by the `save` action of the message
click handler:
`if (!chat.branch || chat.branch.anchor !== anchor) chat.branch = {anchor, active: 2, total: 2};
else { chat.branch.total = (chat.branch.total || 1) + 1; chat.branch.active = chat.branch.total; }` -/
def bumpBranch (br : Option Branch) (anchor : Nat) : Branch :=
  match br with
  | none => ⟨anchor, 2, 2⟩
  | some b =>
    if b.anchor ≠ anchor then ⟨anchor, 2, 2⟩
    else
      let t := (if b.total = 0 then 1 else b.total) + 1
      ⟨b.anchor, t, t⟩

/-- One `save` action seen as a step on the chat's optional branch
state (the saved state is always present afterwards). -/
def saveStep (anchor : Nat) (br : Option Branch) : Option Branch :=
  some (bumpBranch br anchor)

/-- The version pager: `br.active = (br.active % br.total) + 1`. -/
def cycle (br : Branch) : Branch :=
  { br with active := br.active % br.total + 1 }

end Gaia

namespace Gaia

/-! ## C10: `updateChat` on an unknown id -/

/-- C10: if no persisted chat has the id of the chat being updated,
`updateChat` leaves the persisted chat list completely unchanged — it
never inserts a record for an unknown id. -/
theorem updateChat_unknown_id_frame (all : List Chat) (ch : Chat)
    (h : ∀ c ∈ all, c.id ≠ ch.id) : updateChat all ch = all := by
  induction all with
  | nil => rfl
  | cons c rest ih =>
    have hc : c.id ≠ ch.id := h c (List.mem_cons_self c rest)
    simp only [updateChat, if_neg hc]
    exact congrArg (c :: ·) (ih fun x hx => h x (List.mem_cons_of_mem c hx))

/-- Witness for C10 at a concrete store and chat. -/
theorem updateChat_unknown_id_frame_witness :
    (∀ c ∈ [Chat.mk "c_1" "alpha" [], Chat.mk "c_2" "beta" []], c.id ≠ "c_9") ∧
    updateChat [Chat.mk "c_1" "alpha" [], Chat.mk "c_2" "beta" []] (Chat.mk "c_9" "ghost" []) =
      [Chat.mk "c_1" "alpha" [], Chat.mk "c_2" "beta" []] :=
  ⟨by decide, updateChat_unknown_id_frame _ _ (by decide)⟩

/-! ## C3: branch-state initialisation and bumping on save -/

/-- C3: saving an edit with no branch state, or with a branch state on a
different anchor, yields `{anchor, active: 2, total: 2}`; saving with a
branch state already on this anchor bumps `total` by exactly 1 and sets
`active = total`; consequently a sequence of `n ≥ 1` saves on one anchor
(starting from no branch state) ends with `active = total = n + 1`,
each save having grown `total` by exactly 1. -/
theorem bumpBranch_spec :
    (∀ anchor : Nat, bumpBranch none anchor = ⟨anchor, 2, 2⟩) ∧
    (∀ (b : Branch) (anchor : Nat), b.anchor ≠ anchor →
      bumpBranch (some b) anchor = ⟨anchor, 2, 2⟩) ∧
    (∀ (b : Branch) (anchor : Nat), b.anchor = anchor → 1 ≤ b.total →
      (bumpBranch (some b) anchor).total = b.total + 1 ∧
      (bumpBranch (some b) anchor).active = (bumpBranch (some b) anchor).total ∧
      (bumpBranch (some b) anchor).anchor = anchor) ∧
    (∀ (anchor n : Nat), 1 ≤ n →
      (saveStep anchor)^[n] none = some ⟨anchor, n + 1, n + 1⟩) := by
  refine ⟨fun _ => rfl, ?_, ?_, ?_⟩
  · intro b anchor hne
    simp [bumpBranch, hne]
  · intro b anchor ha ht
    have h0 : b.total ≠ 0 := by omega
    simp [bumpBranch, ha, h0]
  · intro anchor n hn
    induction n with
    | zero => omega
    | succ k ih =>
      rcases Nat.eq_zero_or_pos k with hk | hk
      · subst hk; rfl
      · rw [Function.iterate_succ_apply', ih hk]
        simp [saveStep, bumpBranch]

/-- Witness for C3: two saves on anchor 5 starting from a branch state
on a different anchor, and three iterated saves from scratch. -/
theorem bumpBranch_spec_witness :
    ((⟨3, 2, 2⟩ : Branch).anchor ≠ 5 ∧
      bumpBranch (some ⟨3, 2, 2⟩) 5 = ⟨5, 2, 2⟩) ∧
    ((⟨5, 2, 2⟩ : Branch).anchor = 5 ∧ 1 ≤ (⟨5, 2, 2⟩ : Branch).total ∧
      (bumpBranch (some ⟨5, 2, 2⟩) 5).total = 3 ∧
      (bumpBranch (some ⟨5, 2, 2⟩) 5).active = 3) ∧
    (saveStep 5)^[3] none = some ⟨5, 4, 4⟩ := by
  refine ⟨⟨by decide, bumpBranch_spec.2.1 _ _ (by decide)⟩, ⟨rfl, by decide, ?_, ?_⟩, ?_⟩
  · have h := (bumpBranch_spec.2.2.1 ⟨5, 2, 2⟩ 5 rfl (by decide)).1
    simpa using h
  · have h := bumpBranch_spec.2.2.1 ⟨5, 2, 2⟩ 5 rfl (by decide)
    have := h.2.1
    rw [this, h.1]
  · simpa using bumpBranch_spec.2.2.2 5 3 (by decide)

/-! ## C5: the version pager is a forward-wraparound bijection -/

/-- Iterating `cycle` shifts `active` cyclically and fixes `total`. -/
theorem cycle_iterate_active (br : Branch) (h1 : 1 ≤ br.active)
    (h2 : br.active ≤ br.total) (n : Nat) :
    (cycle^[n] br).active = (br.active - 1 + n) % br.total + 1 ∧
    (cycle^[n] br).total = br.total := by
  have ht : 0 < br.total := lt_of_lt_of_le h1 h2
  induction n with
  | zero =>
    refine ⟨?_, rfl⟩
    have hlt : br.active - 1 < br.total := by omega
    simp [Nat.mod_eq_of_lt hlt]
    omega
  | succ k ih =>
    rw [Function.iterate_succ_apply']
    refine ⟨?_, by simp [cycle, ih.2]⟩
    simp only [cycle, ih.1, ih.2]
    have hassoc : br.active - 1 + k + 1 = br.active - 1 + (k + 1) := by omega
    rw [Nat.mod_add_mod, hassoc]

/-- C5: the pager's update `active := (active % total) + 1` is a
bijection of `{1..total}` onto itself (the forward wraparound
1→2→…→N→1), and applying it `total` times returns `active` to its
original value. -/
theorem cycle_bijection (br : Branch) (h1 : 1 ≤ br.active)
    (h2 : br.active ≤ br.total) :
    Set.BijOn (fun a => (cycle ⟨br.anchor, a, br.total⟩).active)
      (Set.Icc 1 br.total) (Set.Icc 1 br.total) ∧
    (cycle^[br.total] br).active = br.active := by
  have ht : 0 < br.total := lt_of_lt_of_le h1 h2
  constructor
  · refine ⟨?_, ?_, ?_⟩
    · intro a ha
      simp only [Set.mem_Icc] at ha ⊢
      constructor
      · simp [cycle]
      · have := Nat.mod_lt a ht
        simp only [cycle]
        omega
    · intro a ha b hb hab
      simp only [Set.mem_Icc] at ha hb
      simp only [cycle] at hab
      have hmod : a % br.total = b % br.total := by omega
      rcases Nat.lt_or_ge a br.total with hal | hae
      · rcases Nat.lt_or_ge b br.total with hbl | hbe
        · rwa [Nat.mod_eq_of_lt hal, Nat.mod_eq_of_lt hbl] at hmod
        · have hb' : b = br.total := by omega
          rw [Nat.mod_eq_of_lt hal, hb', Nat.mod_self] at hmod
          omega
      · have ha' : a = br.total := by omega
        rcases Nat.lt_or_ge b br.total with hbl | hbe
        · rw [ha', Nat.mod_self, Nat.mod_eq_of_lt hbl] at hmod
          omega
        · have hb' : b = br.total := by omega
          rw [ha', hb']
    · intro b hb
      simp only [Set.mem_Icc] at hb
      rcases Nat.eq_or_lt_of_le hb.1 with hb1 | hb1
      · refine ⟨br.total, by simp [Set.mem_Icc]; omega, ?_⟩
        simp [cycle, Nat.mod_self]
        omega
      · refine ⟨b - 1, by simp [Set.mem_Icc]; omega, ?_⟩
        have hlt : b - 1 < br.total := by omega
        simp [cycle, Nat.mod_eq_of_lt hlt]
        omega
  · have h := (cycle_iterate_active br h1 h2 br.total).1
    rw [h, Nat.add_mod_right, Nat.mod_eq_of_lt (by omega)]
    omega

/-- Witness for C5 at the concrete branch state `{anchor 0, active 2, total 3}`. -/
theorem cycle_bijection_witness :
    1 ≤ (⟨0, 2, 3⟩ : Branch).active ∧ (⟨0, 2, 3⟩ : Branch).active ≤ (⟨0, 2, 3⟩ : Branch).total ∧
    (Set.BijOn (fun a => (cycle ⟨(⟨0, 2, 3⟩ : Branch).anchor, a, (⟨0, 2, 3⟩ : Branch).total⟩).active)
      (Set.Icc 1 (⟨0, 2, 3⟩ : Branch).total) (Set.Icc 1 (⟨0, 2, 3⟩ : Branch).total) ∧
    (cycle^[(⟨0, 2, 3⟩ : Branch).total] (⟨0, 2, 3⟩ : Branch)).active = (⟨0, 2, 3⟩ : Branch).active) :=
  ⟨by decide, by decide, cycle_bijection ⟨0, 2, 3⟩ (by decide) (by decide)⟩

/-! ## C7: the request arbiter for `/models/versions` refreshes -/

/-- One version entry `{id, label}` of a `/models/versions` response. -/
structure ModelVersion where
  id : String
  label : String
  deriving Repr, DecidableEq

/-- How `loadModelVersions` writes an accepted response into the
dropdown: `versionSel.innerHTML = '<option value="">latest</option>'`
followed by one option per version of `versions.slice(0, 3)`, with
value `v.id` and text `v.label || v.id`. -/
def applyVersions (data : List ModelVersion) : List (String × String) :=
  ("", "latest") :: (data.take 3).map (fun v => (v.id, if v.label = "" then v.id else v.label))

/-- Shared state touched by `loadModelVersions`: the request counter
`_mvReqSeq` and the dropdown contents (value/text pairs). -/
structure MVState where
  seq : Nat := 0
  dropdown : List (String × String) := [("", "latest")]
  deriving Repr, DecidableEq

/-- Observable events of the refresh protocol: a dispatch
(`const reqId = ++_mvReqSeq`), a successful response arriving for the
request tagged `tag`, or a failed response for it (the `catch` branch). -/
inductive MVAct where
  | dispatch
  | arriveOk (tag : Nat) (data : List ModelVersion)
  | arriveErr (tag : Nat)
  deriving Repr, DecidableEq

/-- Transition of `loadModelVersions`: a successful response is applied
only when `reqId === _mvReqSeq` at arrival time (`if (reqId !== _mvReqSeq) return;`);
the `catch` branch resets the dropdown to the "latest" fallback. -/
def mvStep (st : MVState) : MVAct → MVState
  | .dispatch => { st with seq := st.seq + 1 }
  | .arriveOk tag data =>
    if tag = st.seq then { st with dropdown := applyVersions data } else st
  | .arriveErr _ => { st with dropdown := [("", "latest")] }

/-- Run a list of refresh events from the initial state. -/
def mvRun (acts : List MVAct) : MVState := acts.foldl mvStep {}

/-- C7 counterexample: refresh #1 is dispatched, then refresh #2; #2's
successful response is applied; then #1's response arrives — as a
failure (network error or non-JSON body).  The staleness guard sits
inside the `try` after `res.json()`, so the `catch` branch resets the
dropdown to the "latest" fallback with no `reqId` check: #1's stale
arrival is not silently discarded, and the final dropdown no longer
matches #2's response. -/
theorem mv_stale_error_clobbers_counterexample :
    ((mvRun [.dispatch, .dispatch, .arriveOk 2 [⟨"v2", "V2"⟩]]).dropdown =
      applyVersions [⟨"v2", "V2"⟩]) ∧
    ((mvRun [.dispatch, .dispatch, .arriveOk 2 [⟨"v2", "V2"⟩], .arriveErr 1]).dropdown =
      [("", "latest")]) ∧
    (mvRun [.dispatch, .dispatch, .arriveOk 2 [⟨"v2", "V2"⟩], .arriveErr 1]).dropdown ≠
      applyVersions [⟨"v2", "V2"⟩] := by
  refine ⟨?_, ?_, ?_⟩ <;> decide

/-- C7 (amended): a **successful** response is applied to the version
dropdown only when its sequence tag equals the current counter at the
moment it arrives — any successful response whose tag differs (in
particular any staler one) leaves the state untouched, so when refresh
#1's successful response arrives after refresh #2's, it is dropped and
the final dropdown matches #2's response only; a **failed** response,
however, resets the dropdown to the "latest" fallback regardless of
its tag. -/
theorem mv_arbiter_spec :
    (∀ (st : MVState) (tag : Nat) (data : List ModelVersion), tag ≠ st.seq →
      mvStep st (.arriveOk tag data) = st) ∧
    (∀ d1 d2 : List ModelVersion,
      mvRun [.dispatch, .dispatch, .arriveOk 2 d2, .arriveOk 1 d1] =
        mvRun [.dispatch, .dispatch, .arriveOk 2 d2] ∧
      (mvRun [.dispatch, .dispatch, .arriveOk 2 d2, .arriveOk 1 d1]).dropdown =
        applyVersions d2) ∧
    (∀ (st : MVState) (tag : Nat),
      mvStep st (.arriveErr tag) = { st with dropdown := [("", "latest")] }) := by
  refine ⟨?_, ?_, ?_⟩
  · intro st tag data hne
    simp [mvStep, hne]
  · intro d1 d2
    constructor
    · simp [mvRun, mvStep]
    · simp [mvRun, mvStep]
  · intro st tag
    rfl

/-- Witness for C7's amended theorem: a stale successful tag (1)
against a counter at 2 is discarded. -/
theorem mv_arbiter_spec_witness :
    (1 : Nat) ≠ (MVState.mk 2 [("", "latest")]).seq ∧
    mvStep (MVState.mk 2 [("", "latest")]) (.arriveOk 1 [⟨"v1", "V1"⟩]) =
      MVState.mk 2 [("", "latest")] :=
  ⟨by decide, mv_arbiter_spec.1 _ 1 [⟨"v1", "V1"⟩] (by decide)⟩

/-! ## The streaming engine (`sendSSE`, its `finish`, and the stop button)

The model follows the code of `sendSSE` and the `#btn-stop` click
handler.  Each `sendSSE` call creates one session (the closure holding
`closed`, `fullText`, the `textTarget` DOM node and the `EventSource`);
the global state holds `GAIA_BUSY`, `currentSSE` and the chat history.
Events of a closed `EventSource` are never delivered, so every listener
body is guarded by the session's `esOpen` flag. -/

/-- JS `String.prototype.trim()`: strip leading and trailing
whitespace. (Lean's own `String.trim` is extensionally the same but is
not kernel-reducible, so the embedding carries its own copy.) -/
def jsTrim (s : String) : String :=
  String.mk (((s.data.dropWhile Char.isWhitespace).reverse.dropWhile Char.isWhitespace).reverse)

/-- Concatenation of a list of delta fragments in arrival order. -/
def concatAll : List String → String
  | [] => ""
  | s :: rest => s ++ concatAll rest

/-- The per-`sendSSE` session closure: the assistant placeholder's
index `aiIdx`, whether the `EventSource` is still open, the `closed`
guard flag of `finish`, the `fullText` buffer, the text currently shown
in the bubble (`textTarget.textContent`, initialised to "Thinking…"),
and a ghost counter of how many times the body of `finish` (past the
`closed` guard) has run. -/
structure Sess where
  aiIdx : Nat
  esOpen : Bool := true
  closed : Bool := false
  fullText : String := ""
  domText : String := "Thinking…"
  finCount : Nat := 0
  deriving Repr, DecidableEq

/-- Global client state: `GAIA_BUSY`, `currentSSE` (index of the
session it points to, if any), all sessions ever created, and the
chat's history. -/
structure ClientState where
  busy : Bool := false
  currentSSE : Option Nat := none
  sessions : List Sess := []
  history : List Message := []
  deriving Repr, DecidableEq

/-- The user message pushed by `pushUserMessage`. -/
def mkUserMsg (q : String) : Message := { role := "user", content := q }

/-- The empty assistant placeholder pushed by `pushAiMessage`. -/
def mkAiMsg : Message := { role := "assistant", content := "" }

/-- `c.history[aiIdx].content = text` guarded by
`if (c && c.history[aiIdx])`. -/
def setContent (hist : List Message) (i : Nat) (text : String) : List Message :=
  match hist[i]? with
  | some m => hist.set i { m with content := text }
  | none => hist

/-- The final text persisted by `finish`:
`fullText.trim() || (!ok ? (renderedErr || "⚠️ Stream error. Try again.") : "")`
where `renderedErr` is the trimmed bubble text. -/
def finishPersist (ok : Bool) (fullText domText : String) : String :=
  if jsTrim fullText ≠ "" then jsTrim fullText
  else if ok then ""
  else if jsTrim domText ≠ "" then jsTrim domText
  else "⚠️ Stream error. Try again."

/-- The `finish(ok)` closure of session `sid`: a no-op once `closed` is
set; otherwise it sets `closed`, closes the feed, nulls `currentSSE`,
clears the busy flag and persists the final text into the placeholder
slot. -/
def finish (ok : Bool) (sid : Nat) (st : ClientState) : ClientState :=
  match st.sessions[sid]? with
  | none => st
  | some s =>
    if s.closed then st
    else
      let s' := { s with closed := true, esOpen := false, finCount := s.finCount + 1 }
      { st with
        sessions := st.sessions.set sid s'
        currentSSE := none
        busy := false
        history := setContent st.history s.aiIdx (finishPersist ok s.fullText s.domText) }

/-- Whether the feed of session `sid` is still open (a closed
`EventSource` delivers no further events). -/
def sessOpen (st : ClientState) (sid : Nat) : Bool :=
  match st.sessions[sid]? with
  | some s => s.esOpen
  | none => false

/-- Update session `sid` in place. -/
def updSess (st : ClientState) (sid : Nat) (f : Sess → Sess) : ClientState :=
  match st.sessions[sid]? with
  | some s => { st with sessions := st.sessions.set sid (f s) }
  | none => st

/-- The `delta` listener's session update:
`fullText += text; textTarget.textContent = fullText`. -/
def deltaUpd (text : String) (s : Sess) : Sess :=
  { s with fullText := s.fullText ++ text, domText := s.fullText ++ text }

/-- The generic `error` listener's bubble update:
`if (textTarget && !fullText) textTarget.textContent = "⚠️ Stream error. Try again."`. -/
def errorUpd (s : Sess) : Sess :=
  if s.fullText = "" then { s with domText := "⚠️ Stream error. Try again." } else s

/-- The `gaia_error` listener's bubble update:
`textTarget.textContent = "⚠️ " + (info.error || "Stream error. Try again.")`. -/
def gaiaUpd (msg : String) (s : Sess) : Sess :=
  { s with domText := "⚠️ " ++ (if msg = "" then "Stream error. Try again." else msg) }

/-- The stop handler's feed closure: `currentSSE.close()`. -/
def stopUpd (s : Sess) : Sess := { s with esOpen := false }

/-- Observable events of the streaming engine: a streamed send, the
feed events `delta`/`done`/`error`/`gaia_error` addressed to a session,
and a click on the stop button. -/
inductive Act where
  | sendStream (q : String)
  | delta (sid : Nat) (text : String)
  | done (sid : Nat)
  | errorEv (sid : Nat)
  | gaiaError (sid : Nat) (msg : String)
  | clickStop
  deriving Repr, DecidableEq

/-- One transition.  `sendStream` mirrors `sendSSE` (early return on
`GAIA_BUSY`, push of the user message, `setBusy(true)`, push of the
empty placeholder, opening the feed and storing it in `currentSSE`).
The event cases mirror the listeners; `clickStop` mirrors the
`#btn-stop` click handler
(`if (currentSSE) { currentSSE.close(); currentSSE = null; }`). -/
def step (st : ClientState) : Act → ClientState
  | .sendStream q =>
    if st.busy then st
    else
      let h1 := st.history ++ [mkUserMsg q]
      { busy := true
        currentSSE := some st.sessions.length
        sessions := st.sessions ++ [{ aiIdx := h1.length }]
        history := h1 ++ [mkAiMsg] }
  | .delta sid text =>
    if sessOpen st sid then
      if text = "" then st
      else updSess st sid (deltaUpd text)
    else st
  | .done sid => if sessOpen st sid then finish true sid st else st
  | .errorEv sid =>
    if sessOpen st sid then finish false sid (updSess st sid errorUpd) else st
  | .gaiaError sid msg =>
    if sessOpen st sid then finish false sid (updSess st sid (gaiaUpd msg)) else st
  | .clickStop =>
    match st.currentSSE with
    | some sid => { updSess st sid stopUpd with currentSSE := none }
    | none => st

/-- Run a sequence of events from the pristine client state. -/
def run (acts : List Act) : ClientState := acts.foldl step {}

/-- Per-session invariant: the ghost finalize counter agrees with the
`closed` guard flag, and a finalized session has a closed feed. -/
def SessInv (s : Sess) : Prop :=
  s.finCount = (if s.closed then 1 else 0) ∧ (s.closed = true → s.esOpen = false)

/-- Reachable-state invariant: every session satisfies `SessInv`, at
most one session has an open feed, an open feed implies the busy flag,
and `currentSSE` points at a session with an open feed. -/
def Inv (st : ClientState) : Prop :=
  (∀ s ∈ st.sessions, SessInv s) ∧
  (∀ (i j : Nat) (si sj : Sess), st.sessions[i]? = some si → st.sessions[j]? = some sj →
    si.esOpen = true → sj.esOpen = true → i = j) ∧
  (∀ s ∈ st.sessions, s.esOpen = true → st.busy = true) ∧
  (∀ sid, st.currentSSE = some sid → ∃ s, st.sessions[sid]? = some s ∧ s.esOpen = true)

theorem inv_init : Inv {} := by
  refine ⟨?_, ?_, ?_, ?_⟩
  · intro s hs; exact absurd hs (List.not_mem_nil s)
  · intro i j si sj hi _ _ _; exact Option.noConfusion hi
  · intro s hs; exact absurd hs (List.not_mem_nil s)
  · intro sid h; exact Option.noConfusion h

theorem updSess_eq (st : ClientState) (sid : Nat) (f : Sess → Sess) (s : Sess)
    (h : st.sessions[sid]? = some s) :
    updSess st sid f = { st with sessions := st.sessions.set sid (f s) } := by
  simp [updSess, h]

theorem updSess_none (st : ClientState) (sid : Nat) (f : Sess → Sess)
    (h : st.sessions[sid]? = none) : updSess st sid f = st := by
  simp [updSess, h]

theorem sessOpen_updSess (st : ClientState) (sid : Nat) (f : Sess → Sess)
    (hf : ∀ s, (f s).esOpen = s.esOpen) :
    sessOpen (updSess st sid f) sid = sessOpen st sid := by
  cases hs : st.sessions[sid]? with
  | none => rw [updSess_none st sid f hs]
  | some s =>
    have hlt : sid < st.sessions.length := (List.getElem?_eq_some.mp hs).1
    rw [updSess_eq st sid f s hs]
    simp [sessOpen, List.getElem?_set_self hlt, hs, hf]

theorem inv_updSess (st : ClientState) (sid : Nat) (f : Sess → Sess)
    (hf1 : ∀ s, SessInv s → SessInv (f s))
    (hf2 : ∀ s, (f s).esOpen = s.esOpen)
    (hInv : Inv st) : Inv (updSess st sid f) := by
  obtain ⟨h1, h2, h3, h4⟩ := hInv
  cases hs : st.sessions[sid]? with
  | none => rw [updSess_none st sid f hs]; exact ⟨h1, h2, h3, h4⟩
  | some s =>
    have hlt : sid < st.sessions.length := (List.getElem?_eq_some.mp hs).1
    rw [updSess_eq st sid f s hs]
    have key : ∀ (k : Nat) (sk : Sess), (st.sessions.set sid (f s))[k]? = some sk →
        ∃ sk0 : Sess, st.sessions[k]? = some sk0 ∧ sk0.esOpen = sk.esOpen := by
      intro k sk hk
      rw [List.getElem?_set] at hk
      by_cases hek : sid = k
      · rw [if_pos hek, if_pos hlt] at hk
        subst hek
        have hsk : sk = f s := by injection hk with hk; exact hk.symm
        exact ⟨s, hs, by rw [hsk, hf2]⟩
      · rw [if_neg hek] at hk
        exact ⟨sk, hk, rfl⟩
    refine ⟨?_, ?_, ?_, ?_⟩
    · intro s' hs'
      rcases List.mem_or_eq_of_mem_set hs' with h | h
      · exact h1 s' h
      · rw [h]; exact hf1 s (h1 s (List.mem_iff_getElem?.mpr ⟨sid, hs⟩))
    · intro i j si sj hi hj hoi hoj
      obtain ⟨si0, hi0, hoi0⟩ := key i si hi
      obtain ⟨sj0, hj0, hoj0⟩ := key j sj hj
      exact h2 i j si0 sj0 hi0 hj0 (hoi0.trans hoi) (hoj0.trans hoj)
    · intro s' hs' ho'
      obtain ⟨k, hk⟩ := List.mem_iff_getElem?.mp hs'
      obtain ⟨sk0, hk0, hok0⟩ := key k s' hk
      exact h3 sk0 (List.mem_iff_getElem?.mpr ⟨k, hk0⟩) (hok0.trans ho')
    · intro sid2 hc
      obtain ⟨s2, hs2, ho2⟩ := h4 sid2 hc
      by_cases he : sid2 = sid
      · subst he
        have : s2 = s := by rw [hs2] at hs; injection hs
        subst this
        exact ⟨f s2, by simp [List.getElem?_set, hlt], by rw [hf2]; exact ho2⟩
      · exact ⟨s2, by rw [List.getElem?_set, if_neg (fun h => he h.symm)]; exact hs2, ho2⟩

theorem inv_finish (ok : Bool) (sid : Nat) (st : ClientState)
    (hopen : sessOpen st sid = true) (hInv : Inv st) : Inv (finish ok sid st) := by
  obtain ⟨h1, h2, h3, h4⟩ := hInv
  unfold sessOpen at hopen
  cases hs : st.sessions[sid]? with
  | none => rw [hs] at hopen; exact absurd hopen (by simp)
  | some s =>
    rw [hs] at hopen
    have hlt : sid < st.sessions.length := (List.getElem?_eq_some.mp hs).1
    have hsmem : s ∈ st.sessions := List.mem_iff_getElem?.mpr ⟨sid, hs⟩
    have hnc : s.closed = false := by
      rcases h1 s hsmem with ⟨_, hc⟩
      cases hcc : s.closed
      · rfl
      · exact absurd hopen (by simp [hc hcc])
    have honly : ∀ (k : Nat) (sk : Sess), st.sessions[k]? = some sk → sk.esOpen = true → k = sid :=
      fun k sk hk hok => h2 k sid sk s hk hs hok hopen
    simp only [finish, hs, hnc, Bool.false_eq_true, if_false]
    refine ⟨?_, ?_, ?_, ?_⟩
    · intro s' hs'
      rcases List.mem_or_eq_of_mem_set hs' with h | h
      · exact h1 s' h
      · rw [h]
        rcases h1 s hsmem with ⟨hf, _⟩
        rw [hnc] at hf
        constructor
        · simp [hf]
        · intro _; rfl
    · intro i j si sj hi hj hoi hoj
      rw [List.getElem?_set] at hi
      by_cases hei : sid = i
      · rw [if_pos hei, if_pos hlt] at hi
        have : si = { s with closed := true, esOpen := false, finCount := s.finCount + 1 } := by
          injection hi with hi; exact hi.symm
        rw [this] at hoi
        exact absurd hoi (by simp)
      · rw [if_neg hei] at hi
        exact absurd (honly i si hi hoi) (fun h => hei h.symm)
    · intro s' hs' ho'
      obtain ⟨k, hk⟩ := List.mem_iff_getElem?.mp hs'
      rw [List.getElem?_set] at hk
      by_cases hek : sid = k
      · rw [if_pos hek, if_pos hlt] at hk
        have : s' = { s with closed := true, esOpen := false, finCount := s.finCount + 1 } := by
          injection hk with hk; exact hk.symm
        rw [this] at ho'
        exact absurd ho' (by simp)
      · rw [if_neg hek] at hk
        exact absurd (honly k s' hk ho') (fun h => hek h.symm)
    · intro sid2 hc
      exact Option.noConfusion hc

theorem deltaUpd_esOpen (text : String) (s : Sess) : (deltaUpd text s).esOpen = s.esOpen := rfl

theorem errorUpd_esOpen (s : Sess) : (errorUpd s).esOpen = s.esOpen := by
  by_cases hft : s.fullText = "" <;> simp [errorUpd, hft]

theorem gaiaUpd_esOpen (msg : String) (s : Sess) : (gaiaUpd msg s).esOpen = s.esOpen := rfl

theorem deltaUpd_sessInv (text : String) (s : Sess) (h : SessInv s) : SessInv (deltaUpd text s) :=
  ⟨h.1, h.2⟩

theorem errorUpd_sessInv (s : Sess) (h : SessInv s) : SessInv (errorUpd s) := by
  by_cases hft : s.fullText = "" <;> simp [SessInv, errorUpd, hft] at h ⊢ <;> exact h

theorem gaiaUpd_sessInv (msg : String) (s : Sess) (h : SessInv s) : SessInv (gaiaUpd msg s) :=
  ⟨h.1, h.2⟩

theorem inv_step (st : ClientState) (a : Act) (hInv : Inv st) : Inv (step st a) := by
  obtain ⟨h1, h2, h3, h4⟩ := hInv
  cases a with
  | sendStream q =>
    by_cases hb : st.busy = true
    · have hid : step st (.sendStream q) = st := by simp [step, hb]
      rw [hid]; exact ⟨h1, h2, h3, h4⟩
    · have hnoopen : ∀ s ∈ st.sessions, s.esOpen = false := by
        intro s hsm
        cases ho : s.esOpen
        · rfl
        · exact absurd (h3 s hsm ho) hb
      have hb' : st.busy = false := by
        cases hbb : st.busy
        · rfl
        · exact absurd hbb hb
      simp only [step, hb', Bool.false_eq_true, if_false]
      have key : ∀ (k : Nat) (sk : Sess),
          (st.sessions ++ [{ aiIdx := (st.history ++ [mkUserMsg q]).length : Sess }])[k]? = some sk →
          sk.esOpen = true → k = st.sessions.length := by
        intro k sk hk hok
        rcases Nat.lt_trichotomy k st.sessions.length with hkL | hkL | hkL
        · rw [List.getElem?_append, if_pos hkL] at hk
          have := hnoopen sk (List.mem_iff_getElem?.mpr ⟨k, hk⟩)
          rw [this] at hok
          exact Bool.noConfusion hok
        · exact hkL
        · rw [List.getElem?_append_right (Nat.le_of_lt hkL)] at hk
          rw [List.getElem?_eq_none (by simp; omega)] at hk
          exact Option.noConfusion hk
      refine ⟨?_, ?_, ?_, ?_⟩
      · intro s' hs'
        rcases List.mem_append.mp hs' with h | h
        · exact h1 s' h
        · rcases List.mem_singleton.mp h with h
          rw [h]
          exact ⟨rfl, fun hc => Bool.noConfusion hc⟩
      · intro i j si sj hi hj hoi hoj
        rw [key i si hi hoi, key j sj hj hoj]
      · intro s' _ _; rfl
      · intro sid2 hc
        have hsid : sid2 = st.sessions.length := by injection hc with hc; exact hc.symm
        subst hsid
        exact ⟨_, List.getElem?_concat_length _ _, rfl⟩
  | delta sid t =>
    by_cases hg : sessOpen st sid = true
    · by_cases ht : t = ""
      · have hid : step st (.delta sid t) = st := by simp [step, hg, ht]
        rw [hid]; exact ⟨h1, h2, h3, h4⟩
      · have hstep : step st (.delta sid t) = updSess st sid (deltaUpd t) := by
          simp [step, hg, ht]
        rw [hstep]
        exact inv_updSess st sid _ (deltaUpd_sessInv t) (deltaUpd_esOpen t) ⟨h1, h2, h3, h4⟩
    · have hid : step st (.delta sid t) = st := by simp [step, hg]
      rw [hid]; exact ⟨h1, h2, h3, h4⟩
  | done sid =>
    by_cases hg : sessOpen st sid = true
    · have hstep : step st (.done sid) = finish true sid st := by simp [step, hg]
      rw [hstep]
      exact inv_finish true sid st hg ⟨h1, h2, h3, h4⟩
    · have hid : step st (.done sid) = st := by simp [step, hg]
      rw [hid]; exact ⟨h1, h2, h3, h4⟩
  | errorEv sid =>
    by_cases hg : sessOpen st sid = true
    · have hstep : step st (.errorEv sid) = finish false sid (updSess st sid errorUpd) := by
        simp [step, hg]
      rw [hstep]
      refine inv_finish false sid _ ?_ (inv_updSess st sid _ errorUpd_sessInv errorUpd_esOpen ⟨h1, h2, h3, h4⟩)
      rw [sessOpen_updSess st sid _ errorUpd_esOpen]
      exact hg
    · have hid : step st (.errorEv sid) = st := by simp [step, hg]
      rw [hid]; exact ⟨h1, h2, h3, h4⟩
  | gaiaError sid msg =>
    by_cases hg : sessOpen st sid = true
    · have hstep : step st (.gaiaError sid msg) = finish false sid (updSess st sid (gaiaUpd msg)) := by
        simp [step, hg]
      rw [hstep]
      refine inv_finish false sid _ ?_
        (inv_updSess st sid _ (gaiaUpd_sessInv msg) (gaiaUpd_esOpen msg) ⟨h1, h2, h3, h4⟩)
      rw [sessOpen_updSess st sid _ (gaiaUpd_esOpen msg)]
      exact hg
    · have hid : step st (.gaiaError sid msg) = st := by simp [step, hg]
      rw [hid]; exact ⟨h1, h2, h3, h4⟩
  | clickStop =>
    cases hc : st.currentSSE with
    | none =>
      have hid : step st .clickStop = st := by simp [step, hc]
      rw [hid]; exact ⟨h1, h2, h3, h4⟩
    | some sid =>
      obtain ⟨s, hs, hops⟩ := h4 sid hc
      have hlt : sid < st.sessions.length := (List.getElem?_eq_some.mp hs).1
      have honly : ∀ (k : Nat) (sk : Sess), st.sessions[k]? = some sk → sk.esOpen = true → k = sid :=
        fun k sk hk hok => h2 k sid sk s hk hs hok hops
      have hstep : step st .clickStop =
          { st with sessions := st.sessions.set sid (stopUpd s), currentSSE := none } := by
        simp [step, hc, updSess_eq st sid stopUpd s hs]
      rw [hstep]
      refine ⟨?_, ?_, ?_, ?_⟩
      · intro s' hs'
        rcases List.mem_or_eq_of_mem_set hs' with h | h
        · exact h1 s' h
        · rw [h]
          rcases h1 s (List.mem_iff_getElem?.mpr ⟨sid, hs⟩) with ⟨hf, _⟩
          exact ⟨hf, fun _ => rfl⟩
      · intro i j si sj hi hj hoi hoj
        rw [List.getElem?_set] at hi
        by_cases hei : sid = i
        · rw [if_pos hei, if_pos hlt] at hi
          have : si = stopUpd s := by injection hi with hi; exact hi.symm
          rw [this] at hoi
          exact absurd hoi (by simp [stopUpd])
        · rw [if_neg hei] at hi
          exact absurd (honly i si hi hoi) (fun h => hei h.symm)
      · intro s' hs' ho'
        obtain ⟨k, hk⟩ := List.mem_iff_getElem?.mp hs'
        rw [List.getElem?_set] at hk
        by_cases hek : sid = k
        · rw [if_pos hek, if_pos hlt] at hk
          have : s' = stopUpd s := by injection hk with hk; exact hk.symm
          rw [this] at ho'
          exact absurd ho' (by simp [stopUpd])
        · rw [if_neg hek] at hk
          have := honly k s' hk ho'
          exact absurd this (fun h => hek h.symm)
      · intro sid2 hc2
        exact Option.noConfusion hc2

theorem inv_foldl (acts : List Act) :
    ∀ st : ClientState, Inv st → Inv (acts.foldl step st) := by
  induction acts with
  | nil => intro st h; exact h
  | cons a rest ih => intro st h; exact ih (step st a) (inv_step st a h)

theorem inv_run (acts : List Act) : Inv (run acts) :=
  inv_foldl acts {} inv_init

theorem updSess_getElem_ne (st : ClientState) (sid2 : Nat) (f : Sess → Sess) (sid : Nat)
    (hne : sid2 ≠ sid) : (updSess st sid2 f).sessions[sid]? = st.sessions[sid]? := by
  cases hs2 : st.sessions[sid2]? with
  | none => rw [updSess_none _ _ _ hs2]
  | some s2 =>
    rw [updSess_eq _ _ _ s2 hs2]
    show (st.sessions.set sid2 (f s2))[sid]? = st.sessions[sid]?
    rw [List.getElem?_set, if_neg hne]

theorem finish_getElem_ne (ok : Bool) (sid2 : Nat) (st : ClientState) (sid : Nat)
    (hne : sid2 ≠ sid) : (finish ok sid2 st).sessions[sid]? = st.sessions[sid]? := by
  unfold finish
  cases hs2 : st.sessions[sid2]? with
  | none => rfl
  | some s2 =>
    by_cases hc : s2.closed = true
    · simp [hc]
    · have hc' : s2.closed = false := by cases hcc : s2.closed; rfl; exact absurd hcc hc
      simp only [hc', Bool.false_eq_true, if_false]
      show (st.sessions.set sid2 _)[sid]? = st.sessions[sid]?
      rw [List.getElem?_set, if_neg hne]

/-- The guard of an event targeting a session whose feed is closed is
false; if the target is another session, that other session must
differ. -/
theorem closed_sess_frozen (st : ClientState) (hInv : Inv st) (a : Act) (sid : Nat) (s : Sess)
    (hs : st.sessions[sid]? = some s) (hcl : s.esOpen = false) :
    (step st a).sessions[sid]? = some s := by
  obtain ⟨h1, h2, h3, h4⟩ := hInv
  have hlt : sid < st.sessions.length := (List.getElem?_eq_some.mp hs).1
  have hne_of_open : ∀ sid2 : Nat, sessOpen st sid2 = true → sid2 ≠ sid := by
    intro sid2 hg he
    subst he
    simp [sessOpen, hs, hcl] at hg
  cases a with
  | sendStream q =>
    by_cases hb : st.busy = true
    · simp [step, hb, hs]
    · have hb' : st.busy = false := by
        cases hbb : st.busy
        · rfl
        · exact absurd hbb hb
      simp only [step, hb', Bool.false_eq_true, if_false]
      show (st.sessions ++ _)[sid]? = some s
      rw [List.getElem?_append, if_pos hlt]
      exact hs
  | delta sid2 t =>
    by_cases hg : sessOpen st sid2 = true
    · by_cases ht : t = ""
      · simp [step, hg, ht, hs]
      · have hstep : step st (.delta sid2 t) = updSess st sid2 (deltaUpd t) := by
          simp [step, hg, ht]
        rw [hstep, updSess_getElem_ne st sid2 _ sid (hne_of_open sid2 hg)]
        exact hs
    · simp [step, hg, hs]
  | done sid2 =>
    by_cases hg : sessOpen st sid2 = true
    · have hstep : step st (.done sid2) = finish true sid2 st := by simp [step, hg]
      rw [hstep, finish_getElem_ne true sid2 st sid (hne_of_open sid2 hg)]
      exact hs
    · simp [step, hg, hs]
  | errorEv sid2 =>
    by_cases hg : sessOpen st sid2 = true
    · have hstep : step st (.errorEv sid2) = finish false sid2 (updSess st sid2 errorUpd) := by
        simp [step, hg]
      rw [hstep, finish_getElem_ne false sid2 _ sid (hne_of_open sid2 hg),
        updSess_getElem_ne st sid2 _ sid (hne_of_open sid2 hg)]
      exact hs
    · simp [step, hg, hs]
  | gaiaError sid2 msg =>
    by_cases hg : sessOpen st sid2 = true
    · have hstep : step st (.gaiaError sid2 msg) = finish false sid2 (updSess st sid2 (gaiaUpd msg)) := by
        simp [step, hg]
      rw [hstep, finish_getElem_ne false sid2 _ sid (hne_of_open sid2 hg),
        updSess_getElem_ne st sid2 _ sid (hne_of_open sid2 hg)]
      exact hs
    · simp [step, hg, hs]
  | clickStop =>
    cases hc : st.currentSSE with
    | none => simp [step, hc, hs]
    | some sid2 =>
      obtain ⟨s2, hs2, ho2⟩ := h4 sid2 hc
      have hne : sid2 ≠ sid := by
        apply hne_of_open
        simp [sessOpen, hs2, ho2]
      have hstep : step st .clickStop =
          { updSess st sid2 stopUpd with currentSSE := none } := by
        simp [step, hc]
      rw [hstep]
      show (updSess st sid2 stopUpd).sessions[sid]? = some s
      rw [updSess_getElem_ne st sid2 _ sid hne]
      exact hs

/-! ## C6: one outstanding assistant reply per chat -/

/-- C6: a second overlapping send is blocked by the busy flag (a
streamed send in the busy state is a no-op); a send that does proceed
appends exactly one user message and one assistant placeholder; in
every reachable state at most one session has an open feed; whenever a
new streamed send can proceed (busy flag clear) every earlier session's
feed is already closed — so there is never a still-live session when a
new send starts — and a session whose feed is closed never changes
again, so its buffer and finalized content reflect only what was
accumulated before it was closed or cancelled. -/
theorem single_outstanding_reply :
    (∀ (st : ClientState) (q : String), st.busy = true → step st (.sendStream q) = st) ∧
    (∀ (st : ClientState) (q : String), st.busy = false →
      (step st (.sendStream q)).history = st.history ++ [mkUserMsg q, mkAiMsg]) ∧
    (∀ (acts : List Act) (i j : Nat) (si sj : Sess),
      (run acts).sessions[i]? = some si → (run acts).sessions[j]? = some sj →
      si.esOpen = true → sj.esOpen = true → i = j) ∧
    (∀ acts : List Act, (run acts).busy = false →
      ∀ (sid : Nat) (s : Sess), (run acts).sessions[sid]? = some s → s.esOpen = false) ∧
    (∀ (acts : List Act) (a : Act) (sid : Nat) (s : Sess),
      (run acts).sessions[sid]? = some s → s.esOpen = false →
      (step (run acts) a).sessions[sid]? = some s) := by
  refine ⟨?_, ?_, ?_, ?_, ?_⟩
  · intro st q hb
    simp [step, hb]
  · intro st q hb
    simp [step, hb]
  · intro acts i j si sj hi hj hoi hoj
    exact (inv_run acts).2.1 i j si sj hi hj hoi hoj
  · intro acts hb sid s hs
    cases ho : s.esOpen
    · rfl
    · have := (inv_run acts).2.2.1 s (List.mem_iff_getElem?.mpr ⟨sid, hs⟩) ho
      rw [hb] at this
      exact this.symm
  · intro acts a sid s hs hcl
    exact closed_sess_frozen (run acts) (inv_run acts) a sid s hs hcl

/-- Witness for C6: a send while busy is swallowed, a send while idle
appends exactly the user turn and one placeholder. -/
theorem single_outstanding_reply_witness :
    ((run [Act.sendStream "hi"]).busy = true ∧
      step (run [Act.sendStream "hi"]) (.sendStream "again") = run [Act.sendStream "hi"]) ∧
    ((run ([] : List Act)).busy = false ∧
      (step (run ([] : List Act)) (.sendStream "hi")).history =
        (run ([] : List Act)).history ++ [mkUserMsg "hi", mkAiMsg]) :=
  ⟨⟨by decide, single_outstanding_reply.1 _ "again" (by decide)⟩,
   ⟨by decide, single_outstanding_reply.2.1 _ "hi" (by decide)⟩⟩

/-! ## C2: what the stop button actually does to a streaming session -/

/-- C2 counterexample: start a streamed send, receive `delta("Hel")`,
then click stop.  The feed is closed, but the finalize body never ran
(ghost counter 0) and the placeholder still holds `""` — neither the
buffered `"Hel"` nor a "stopped" sentinel was persisted, contradicting
the claim that cancelling runs the finalize-and-persist step exactly
once with the buffered content. -/
theorem cancel_no_finalize_counterexample :
    ((run [Act.sendStream "hi", Act.delta 0 "Hel", Act.clickStop]).sessions.map Sess.esOpen
      = [false]) ∧
    ((run [Act.sendStream "hi", Act.delta 0 "Hel", Act.clickStop]).sessions.map Sess.finCount
      = [0]) ∧
    ((run [Act.sendStream "hi", Act.delta 0 "Hel", Act.clickStop]).sessions.map Sess.fullText
      = ["Hel"]) ∧
    ((run [Act.sendStream "hi", Act.delta 0 "Hel", Act.clickStop]).history.map Message.content
      = ["hi", ""]) ∧
    ¬(((run [Act.sendStream "hi", Act.delta 0 "Hel", Act.clickStop]).sessions.map Sess.finCount
        = [1]) ∧
      ((run [Act.sendStream "hi", Act.delta 0 "Hel", Act.clickStop]).history.map Message.content
        = ["hi", "Hel"])) := by
  refine ⟨?_, ?_, ?_, ?_, ?_⟩ <;> decide

/-- C2 (amended): clicking stop closes the live session's feed and
detaches `currentSSE`, but does **not** run the finalize-and-persist
step: the session record keeps its flags and buffer (only `esOpen`
drops) and the history is untouched.  Independently, the
finalize-and-persist body runs at most once per session — its ghost
counter always equals 1 exactly when the `closed` guard flag is set —
even when stop races with `done`/`error` events, which are ignored once
the feed is closed. -/
theorem cancel_closes_feed_finalize_once :
    (∀ acts : List Act, ∀ s ∈ (run acts).sessions,
      s.finCount = (if s.closed then 1 else 0) ∧ s.finCount ≤ 1) ∧
    (∀ (st : ClientState) (sid : Nat) (s : Sess),
      st.currentSSE = some sid → st.sessions[sid]? = some s →
      (step st .clickStop).sessions[sid]? = some { s with esOpen := false } ∧
      (step st .clickStop).history = st.history ∧
      (step st .clickStop).busy = st.busy ∧
      (step st .clickStop).currentSSE = none) := by
  constructor
  · intro acts s hs
    have h := (inv_run acts).1 s hs
    refine ⟨h.1, ?_⟩
    rw [h.1]
    cases s.closed <;> simp
  · intro st sid s hc hs
    have hlt : sid < st.sessions.length := (List.getElem?_eq_some.mp hs).1
    have hstep : step st .clickStop =
        { st with sessions := st.sessions.set sid (stopUpd s), currentSSE := none } := by
      simp [step, hc, updSess_eq st sid stopUpd s hs]
    rw [hstep]
    refine ⟨?_, rfl, rfl, rfl⟩
    show (st.sessions.set sid (stopUpd s))[sid]? = some { s with esOpen := false }
    rw [List.getElem?_set, if_pos rfl, if_pos hlt]
    rfl

/-- Witness for C2's amended theorem: stop on a fresh session. -/
theorem cancel_closes_feed_finalize_once_witness :
    ((run [Act.sendStream "hi"]).currentSSE = some 0 ∧
      (run [Act.sendStream "hi"]).sessions[0]? = some ⟨1, true, false, "", "Thinking…", 0⟩) ∧
    ((step (run [Act.sendStream "hi"]) .clickStop).sessions[0]? =
        some ⟨1, false, false, "", "Thinking…", 0⟩ ∧
      (step (run [Act.sendStream "hi"]) .clickStop).history = (run [Act.sendStream "hi"]).history ∧
      (step (run [Act.sendStream "hi"]) .clickStop).busy = (run [Act.sendStream "hi"]).busy ∧
      (step (run [Act.sendStream "hi"]) .clickStop).currentSSE = none) :=
  ⟨⟨by decide, by decide⟩,
    cancel_closes_feed_finalize_once.2 (run [Act.sendStream "hi"]) 0
      ⟨1, true, false, "", "Thinking…", 0⟩ (by decide) (by decide)⟩

/-! ## C4: deltas concatenate in order, `done` persists the trimmed buffer -/

/-- Delivering a list of `delta` events to the single open session
appends the concatenation of their texts to its buffer (the bubble text
ends up at some value `dt2` that the `done` path never reads). -/
theorem run_deltas (ds : List String) (b : Bool) (cur : Option Nat) (ai : Nat)
    (hist : List Message) :
    ∀ ft dt : String, ∃ dt2 : String,
      (ds.map (Act.delta 0)).foldl step
        ⟨b, cur, [⟨ai, true, false, ft, dt, 0⟩], hist⟩ =
      ⟨b, cur, [⟨ai, true, false, ft ++ concatAll ds, dt2, 0⟩], hist⟩ := by
  induction ds with
  | nil =>
    intro ft dt
    refine ⟨dt, ?_⟩
    simp [concatAll]
  | cons t rest ih =>
    intro ft dt
    by_cases ht : t = ""
    · subst ht
      obtain ⟨dt2, hdt2⟩ := ih ft dt
      refine ⟨dt2, ?_⟩
      simp only [List.map_cons, List.foldl_cons]
      have hstep : step ⟨b, cur, [⟨ai, true, false, ft, dt, 0⟩], hist⟩ (.delta 0 "") =
          ⟨b, cur, [⟨ai, true, false, ft, dt, 0⟩], hist⟩ := by
        simp [step, sessOpen]
      rw [hstep, hdt2]
      simp [concatAll]
    · obtain ⟨dt2, hdt2⟩ := ih (ft ++ t) (ft ++ t)
      refine ⟨dt2, ?_⟩
      simp only [List.map_cons, List.foldl_cons]
      have hstep : step ⟨b, cur, [⟨ai, true, false, ft, dt, 0⟩], hist⟩ (.delta 0 t) =
          ⟨b, cur, [⟨ai, true, false, ft ++ t, ft ++ t, 0⟩], hist⟩ := by
        simp [step, sessOpen, ht, updSess, deltaUpd]
      rw [hstep, hdt2]
      simp [concatAll, String.append_assoc]

/-- On the success path the persisted text is exactly the trimmed buffer. -/
theorem finishPersist_true (ft dt : String) : finishPersist true ft dt = jsTrim ft := by
  by_cases h : jsTrim ft = "" <;> simp [finishPersist, h]

/-- The state reached by a fresh streamed send. -/
theorem step_sendStream_init (q : String) :
    step {} (.sendStream q) =
      ⟨true, some 0, [⟨1, true, false, "", "Thinking…", 0⟩], [mkUserMsg q, mkAiMsg]⟩ := rfl

/-- C4: for every sequence of `delta` events followed by `done`, the
session's buffer is the concatenation of the delta texts in arrival
order, and the persisted assistant content is exactly the trimmed
buffer; in particular `delta("Hel")`, `delta("lo")`, `done` finalizes
the persisted content as exactly `"Hello"`. -/
theorem delta_concat_done_persists :
    (∀ (q : String) (ds : List String),
      (run (Act.sendStream q :: (ds.map (Act.delta 0) ++ [Act.done 0]))).sessions.map Sess.fullText
        = [concatAll ds] ∧
      (run (Act.sendStream q :: (ds.map (Act.delta 0) ++ [Act.done 0]))).history.map Message.content
        = [q, jsTrim (concatAll ds)]) ∧
    (run [Act.sendStream "Hi", Act.delta 0 "Hel", Act.delta 0 "lo", Act.done 0]).history.map
        Message.content = ["Hi", "Hello"] := by
  constructor
  · intro q ds
    obtain ⟨dt2, hdt2⟩ := run_deltas ds true (some 0) 1 [mkUserMsg q, mkAiMsg] "" "Thinking…"
    have hbuf : ("" : String) ++ concatAll ds = concatAll ds := by simp
    rw [hbuf] at hdt2
    have hrun : run (Act.sendStream q :: (ds.map (Act.delta 0) ++ [Act.done 0])) =
        step ⟨true, some 0, [⟨1, true, false, concatAll ds, dt2, 0⟩], [mkUserMsg q, mkAiMsg]⟩
          (.done 0) := by
      show (Act.sendStream q :: (ds.map (Act.delta 0) ++ [Act.done 0])).foldl step {} = _
      rw [List.foldl_cons, step_sendStream_init, List.foldl_append, hdt2, List.foldl_cons,
        List.foldl_nil]
    rw [hrun]
    have hdone : step ⟨true, some 0, [⟨1, true, false, concatAll ds, dt2, 0⟩],
        [mkUserMsg q, mkAiMsg]⟩ (.done 0) =
        ⟨false, none, [⟨1, false, true, concatAll ds, dt2, 1⟩],
          [mkUserMsg q, { mkAiMsg with content := jsTrim (concatAll ds) }]⟩ := by
      simp [step, sessOpen, finish, setContent, finishPersist_true, mkUserMsg, mkAiMsg]
    rw [hdone]
    exact ⟨rfl, rfl⟩
  · decide

/-! ## C9: error events finalize once with non-empty persisted content -/

/-- C9 counterexample: the buffer `" "` (a single space) is non-empty,
yet on a generic `error` event the code persists the fallback string
`"⚠️ Stream error. Try again."` rather than preserving the buffered
content — the code tests `fullText.trim()`, not buffer non-emptiness. -/
theorem error_buffer_not_preserved_counterexample :
    ((run [Act.sendStream "q", Act.delta 0 " ", Act.errorEv 0]).sessions.map Sess.fullText
      = [" "]) ∧
    (" " : String) ≠ "" ∧
    ((run [Act.sendStream "q", Act.delta 0 " ", Act.errorEv 0]).history.map Message.content
      = ["q", "⚠️ Stream error. Try again."]) ∧
    ("⚠️ Stream error. Try again." : String) ≠ " " := by
  refine ⟨?_, ?_, ?_, ?_⟩ <;> decide

/-- On the failure path the persisted text is non-empty, and it is the
trimmed buffer whenever that is non-empty. -/
theorem finishPersist_false_spec (ft dt : String) :
    finishPersist false ft dt ≠ "" ∧ (jsTrim ft ≠ "" → finishPersist false ft dt = jsTrim ft) := by
  by_cases h : jsTrim ft = ""
  · by_cases h2 : jsTrim dt = "" <;> simp [finishPersist, h, h2]
  · simp [finishPersist, h]

/-- C9 (amended): on a `gaia_error` or generic `error` event the
session finalizes exactly once (ghost counter 1); the persisted
assistant content equals the trimmed buffer whenever the trimmed buffer
is non-empty, and is a fallback error string otherwise; in every error
case the persisted content is non-empty. -/
theorem error_finalize_nonempty :
    ∀ (q msg : String) (ds : List String),
      ((run (Act.sendStream q :: (ds.map (Act.delta 0) ++ [Act.gaiaError 0 msg]))).sessions.map
          Sess.finCount = [1] ∧
        ∃ c : String,
          (run (Act.sendStream q :: (ds.map (Act.delta 0) ++ [Act.gaiaError 0 msg]))).history.map
            Message.content = [q, c] ∧ c ≠ "" ∧
          (jsTrim (concatAll ds) ≠ "" → c = jsTrim (concatAll ds))) ∧
      ((run (Act.sendStream q :: (ds.map (Act.delta 0) ++ [Act.errorEv 0]))).sessions.map
          Sess.finCount = [1] ∧
        ∃ c : String,
          (run (Act.sendStream q :: (ds.map (Act.delta 0) ++ [Act.errorEv 0]))).history.map
            Message.content = [q, c] ∧ c ≠ "" ∧
          (jsTrim (concatAll ds) ≠ "" → c = jsTrim (concatAll ds))) := by
  intro q msg ds
  obtain ⟨dt2, hdt2⟩ := run_deltas ds true (some 0) 1 [mkUserMsg q, mkAiMsg] "" "Thinking…"
  have hbuf : ("" : String) ++ concatAll ds = concatAll ds := by simp
  rw [hbuf] at hdt2
  constructor
  · have hrun : run (Act.sendStream q :: (ds.map (Act.delta 0) ++ [Act.gaiaError 0 msg])) =
        step ⟨true, some 0, [⟨1, true, false, concatAll ds, dt2, 0⟩], [mkUserMsg q, mkAiMsg]⟩
          (.gaiaError 0 msg) := by
      show (Act.sendStream q :: (ds.map (Act.delta 0) ++ [Act.gaiaError 0 msg])).foldl step {} = _
      rw [List.foldl_cons, step_sendStream_init, List.foldl_append, hdt2, List.foldl_cons,
        List.foldl_nil]
    set dg := "⚠️ " ++ (if msg = "" then "Stream error. Try again." else msg) with hdg
    have hstep : step ⟨true, some 0, [⟨1, true, false, concatAll ds, dt2, 0⟩],
        [mkUserMsg q, mkAiMsg]⟩ (.gaiaError 0 msg) =
        ⟨false, none, [⟨1, false, true, concatAll ds, dg, 1⟩],
          [mkUserMsg q, { mkAiMsg with content := finishPersist false (concatAll ds) dg }]⟩ := by
      simp [step, sessOpen, finish, setContent, updSess, gaiaUpd, mkUserMsg, mkAiMsg, hdg]
    rw [hrun, hstep]
    refine ⟨rfl, finishPersist false (concatAll ds) dg, rfl, ?_, ?_⟩
    · exact (finishPersist_false_spec (concatAll ds) dg).1
    · exact (finishPersist_false_spec (concatAll ds) dg).2
  · have hrun : run (Act.sendStream q :: (ds.map (Act.delta 0) ++ [Act.errorEv 0])) =
        step ⟨true, some 0, [⟨1, true, false, concatAll ds, dt2, 0⟩], [mkUserMsg q, mkAiMsg]⟩
          (.errorEv 0) := by
      show (Act.sendStream q :: (ds.map (Act.delta 0) ++ [Act.errorEv 0])).foldl step {} = _
      rw [List.foldl_cons, step_sendStream_init, List.foldl_append, hdt2, List.foldl_cons,
        List.foldl_nil]
    set de := (errorUpd ⟨1, true, false, concatAll ds, dt2, 0⟩).domText with hde
    have hstep : step ⟨true, some 0, [⟨1, true, false, concatAll ds, dt2, 0⟩],
        [mkUserMsg q, mkAiMsg]⟩ (.errorEv 0) =
        ⟨false, none, [⟨1, false, true, concatAll ds, de, 1⟩],
          [mkUserMsg q, { mkAiMsg with content := finishPersist false (concatAll ds) de }]⟩ := by
      by_cases hft : concatAll ds = "" <;>
        simp [step, sessOpen, finish, setContent, updSess, errorUpd, mkUserMsg, mkAiMsg, hde, hft]
    rw [hrun, hstep]
    refine ⟨rfl, finishPersist false (concatAll ds) de, rfl, ?_, ?_⟩
    · exact (finishPersist_false_spec (concatAll ds) de).1
    · exact (finishPersist_false_spec (concatAll ds) de).2

/-- Witness for C9's amended theorem at a concrete error scenario. -/
theorem error_finalize_nonempty_witness :
    ((run [Act.sendStream "q", Act.delta 0 "Hel", Act.gaiaError 0 "boom"]).sessions.map
        Sess.finCount = [1] ∧
      ∃ c : String,
        (run [Act.sendStream "q", Act.delta 0 "Hel", Act.gaiaError 0 "boom"]).history.map
          Message.content = ["q", c] ∧ c ≠ "" ∧
        (jsTrim (concatAll ["Hel"]) ≠ "" → c = jsTrim (concatAll ["Hel"]))) ∧
    ((run [Act.sendStream "q", Act.delta 0 "Hel", Act.errorEv 0]).sessions.map
        Sess.finCount = [1] ∧
      ∃ c : String,
        (run [Act.sendStream "q", Act.delta 0 "Hel", Act.errorEv 0]).history.map
          Message.content = ["q", c] ∧ c ≠ "" ∧
        (jsTrim (concatAll ["Hel"]) ≠ "" → c = jsTrim (concatAll ["Hel"]))) :=
  error_finalize_nonempty "q" "boom" ["Hel"]

/-! ## C8: the `save` action — anchor determination and insertion point -/

/-- Anchor chosen by the save action:
`const anchor = (typeof item.branch_of === "number") ? item.branch_of : idx;`. -/
def saveAnchor (hist : List Message) (idx : Nat) : Nat :=
  match hist[idx]? with
  | some item =>
    match item.branch_of with
    | some a => a
    | none => idx
  | none => idx

/-- The insertion-index scan of the save action:
`let insertIdx = anchor + 1;
for (let j = anchor + 1; j < chat.history.length; j++) {
  const t = chat.history[j];
  if (t.branch_of === anchor) insertIdx = j + 1;
  else if (typeof t.branch_of !== "number") break; }`.
`j` is the position of the head of the remaining list, `acc` the
current `insertIdx`. -/
def insertScan (anchor : Nat) : Nat → Nat → List Message → Nat
  | _, acc, [] => acc
  | j, acc, m :: rest =>
    if m.branch_of = some anchor then insertScan anchor (j + 1) (j + 1) rest
    else
      match m.branch_of with
      | none => acc
      | some _ => insertScan anchor (j + 1) acc rest

/-- The insertion index computed by the save action for `anchor`. -/
def insertIdx (hist : List Message) (anchor : Nat) : Nat :=
  insertScan anchor (anchor + 1) (anchor + 1) (hist.drop (anchor + 1))

/-- JS `array.splice(n, 0, a)`: insert at `n`, clamping to the end. -/
def spliceInsert (l : List α) (n : Nat) (a : α) : List α :=
  l.take n ++ a :: l.drop n

/-- The save action of the message click handler (branch bookkeeping
and insertion of the new user version; the follow-up network fetch is a
separate step).  Returns the new history, the new branch state and the
insertion index. -/
def saveEdit (hist : List Message) (br : Option Branch) (idx : Nat) (newText : String) :
    List Message × Branch × Nat :=
  let anchor := saveAnchor hist idx
  let br2 := bumpBranch br anchor
  let version := br2.active
  let pos := insertIdx hist anchor
  let newUser : Message :=
    { role := "user", content := newText, branch_of := some anchor,
      branch_version := some version, edited := true, editedFrom := some anchor }
  (spliceInsert hist pos newUser, br2, pos)

theorem insertScan_cons_tag (anchor j acc : Nat) (m : Message) (rest : List Message)
    (h : m.branch_of = some anchor) :
    insertScan anchor j acc (m :: rest) = insertScan anchor (j + 1) (j + 1) rest := by
  simp [insertScan, h]

theorem insertScan_cons_none (anchor j acc : Nat) (m : Message) (rest : List Message)
    (h : m.branch_of = none) :
    insertScan anchor j acc (m :: rest) = acc := by
  simp [insertScan, h]

theorem insertScan_cons_other (anchor j acc : Nat) (m : Message) (rest : List Message)
    (x : Nat) (h : m.branch_of = some x) (hx : x ≠ anchor) :
    insertScan anchor j acc (m :: rest) = insertScan anchor (j + 1) acc rest := by
  simp [insertScan, h, hx]

theorem insertScan_bounds (anchor : Nat) :
    ∀ (l : List Message) (j acc : Nat), acc ≤ j →
      acc ≤ insertScan anchor j acc l ∧ insertScan anchor j acc l ≤ j + l.length := by
  intro l
  induction l with
  | nil => intro j acc h; simp [insertScan]; omega
  | cons m rest ih =>
    intro j acc h
    cases hbo : m.branch_of with
    | none =>
      rw [insertScan_cons_none anchor j acc m rest hbo]
      simp
      omega
    | some x =>
      by_cases hx : x = anchor
      · rw [hx] at hbo
        rw [insertScan_cons_tag anchor j acc m rest hbo]
        have := ih (j + 1) (j + 1) (Nat.le_refl _)
        simp only [List.length_cons]
        omega
      · rw [insertScan_cons_other anchor j acc m rest x hbo hx]
        have := ih (j + 1) acc (by omega)
        simp only [List.length_cons]
        omega

theorem insertScan_mem (anchor : Nat) :
    ∀ (l : List Message) (j acc : Nat),
      insertScan anchor j acc l = acc ∨
      ∃ k : Nat, k < l.length ∧ insertScan anchor j acc l = j + k + 1 ∧
        ∃ mk2 : Message, l[k]? = some mk2 ∧ mk2.branch_of = some anchor := by
  intro l
  induction l with
  | nil => intro j acc; left; rfl
  | cons m rest ih =>
    intro j acc
    cases hbo : m.branch_of with
    | none => left; exact insertScan_cons_none anchor j acc m rest hbo
    | some x =>
      by_cases hx : x = anchor
      · rw [hx] at hbo
        rw [insertScan_cons_tag anchor j acc m rest hbo]
        rcases ih (j + 1) (j + 1) with h | ⟨k, hk, hv, mk2, hmk, hb2⟩
        · right
          exact ⟨0, by simp, by omega, m, by simp, hbo⟩
        · right
          refine ⟨k + 1, by simp; omega, by omega, mk2, by simpa using hmk, hb2⟩
      · rw [insertScan_cons_other anchor j acc m rest x hbo hx]
        rcases ih (j + 1) acc with h | ⟨k, hk, hv, mk2, hmk, hb2⟩
        · left; exact h
        · right
          refine ⟨k + 1, by simp; omega, by omega, mk2, by simpa using hmk, hb2⟩

theorem insertScan_tagged_below (anchor : Nat) :
    ∀ (l : List Message) (j acc : Nat), acc ≤ j →
      ∀ (k : Nat) (mk2 : Message), l[k]? = some mk2 →
        j + k < insertScan anchor j acc l → mk2.branch_of ≠ none := by
  intro l
  induction l with
  | nil => intro j acc _ k mk2 hk; exact absurd hk (by simp)
  | cons m rest ih =>
    intro j acc hacc k mk2 hk hlt
    cases hbo : m.branch_of with
    | none =>
      rw [insertScan_cons_none anchor j acc m rest hbo] at hlt
      omega
    | some x =>
      by_cases hx : x = anchor
      · rw [hx] at hbo
        rw [insertScan_cons_tag anchor j acc m rest hbo] at hlt
        cases k with
        | zero =>
          have hmm : m = mk2 := by simpa using hk
          rw [← hmm, hbo]
          exact fun hc => Option.noConfusion hc
        | succ k2 =>
          exact ih (j + 1) (j + 1) (Nat.le_refl _) k2 mk2 (by simpa using hk) (by omega)
      · rw [insertScan_cons_other anchor j acc m rest x hbo hx] at hlt
        cases k with
        | zero =>
          have hmm : m = mk2 := by simpa using hk
          rw [← hmm, hbo]
          exact fun hc => Option.noConfusion hc
        | succ k2 =>
          exact ih (j + 1) acc (by omega) k2 mk2 (by simpa using hk) (by omega)

theorem insertScan_maximal (anchor : Nat) :
    ∀ (l : List Message) (j acc : Nat), acc ≤ j →
      ∀ (k : Nat) (mk2 : Message), l[k]? = some mk2 →
        insertScan anchor j acc l ≤ j + k →
        (∀ (k2 : Nat) (mk3 : Message), k2 ≤ k → l[k2]? = some mk3 → mk3.branch_of ≠ none) →
        mk2.branch_of ≠ some anchor := by
  intro l
  induction l with
  | nil => intro j acc _ k mk2 hk; exact absurd hk (by simp)
  | cons m rest ih =>
    intro j acc hacc k mk2 hk hle hcontig
    cases hbo : m.branch_of with
    | none =>
      cases k with
      | zero =>
        have hmm : m = mk2 := by simpa using hk
        rw [← hmm, hbo]
        exact fun hc => Option.noConfusion hc
      | succ k2 =>
        have := hcontig 0 m (by omega) (by simp)
        exact absurd hbo this
    | some x =>
      by_cases hx : x = anchor
      · rw [hx] at hbo
        rw [insertScan_cons_tag anchor j acc m rest hbo] at hle
        cases k with
        | zero =>
          have hb := (insertScan_bounds anchor rest (j + 1) (j + 1) (Nat.le_refl _)).1
          omega
        | succ k2 =>
          refine ih (j + 1) (j + 1) (Nat.le_refl _) k2 mk2 (by simpa using hk) (by omega) ?_
          intro k3 mk3 hk3 hlk3
          exact hcontig (k3 + 1) mk3 (by omega) (by simpa using hlk3)
      · rw [insertScan_cons_other anchor j acc m rest x hbo hx] at hle
        cases k with
        | zero =>
          have hmm : m = mk2 := by simpa using hk
          rw [← hmm, hbo]
          intro hc
          exact hx (by injection hc)
        | succ k2 =>
          refine ih (j + 1) acc (by omega) k2 mk2 (by simpa using hk) (by omega) ?_
          intro k3 mk3 hk3 hlk3
          exact hcontig (k3 + 1) mk3 (by omega) (by simpa using hlk3)

theorem spliceInsert_getElem_self (l : List α) (n : Nat) (a : α) (h : n ≤ l.length) :
    (spliceInsert l n a)[n]? = some a := by
  unfold spliceInsert
  rw [List.getElem?_append_right (by simp [List.length_take])]
  simp [List.length_take, Nat.min_eq_left h]

/-- C8 (amended): on saving an edit, the true anchor is the edited
message's stored `branch_of` when it is a number, otherwise its own
index; the new user message is tagged `{branch_of: anchor,
branch_version: active}` with `active` the newly bumped version, and it
is inserted at the index computed by the forward scan: one past the
last entry tagged `branch_of === anchor` **within the initial run of
numerically branch-tagged entries following the anchor** (the scan
stops at the first entry whose `branch_of` is not a number), or
immediately after the anchor if that run contains no such entry. -/
theorem saveEdit_spec (hist : List Message) (br : Option Branch) (idx : Nat) (newText : String)
    (item : Message) (hitem : hist[idx]? = some item)
    (hA : saveAnchor hist idx < hist.length) :
    (∀ a : Nat, item.branch_of = some a → saveAnchor hist idx = a) ∧
    (item.branch_of = none → saveAnchor hist idx = idx) ∧
    ((saveEdit hist br idx newText).2.2 = insertIdx hist (saveAnchor hist idx) ∧
      (saveEdit hist br idx newText).2.1 = bumpBranch br (saveAnchor hist idx)) ∧
    ((saveEdit hist br idx newText).1[insertIdx hist (saveAnchor hist idx)]? =
      some ⟨"user", newText, some (saveAnchor hist idx),
        some (bumpBranch br (saveAnchor hist idx)).active, true, some (saveAnchor hist idx)⟩) ∧
    (saveAnchor hist idx < insertIdx hist (saveAnchor hist idx) ∧
      insertIdx hist (saveAnchor hist idx) ≤ hist.length) ∧
    (insertIdx hist (saveAnchor hist idx) = saveAnchor hist idx + 1 ∨
      ∃ mp : Message, hist[insertIdx hist (saveAnchor hist idx) - 1]? = some mp ∧
        mp.branch_of = some (saveAnchor hist idx)) ∧
    (∀ (j : Nat) (mj : Message), saveAnchor hist idx < j →
      j < insertIdx hist (saveAnchor hist idx) → hist[j]? = some mj → mj.branch_of ≠ none) ∧
    (∀ (j : Nat) (mj : Message), insertIdx hist (saveAnchor hist idx) ≤ j → hist[j]? = some mj →
      (∀ (k : Nat) (mk2 : Message), saveAnchor hist idx < k → k ≤ j → hist[k]? = some mk2 →
        mk2.branch_of ≠ none) →
      mj.branch_of ≠ some (saveAnchor hist idx)) := by
  set A := saveAnchor hist idx with hAdef
  set p := insertIdx hist A with hpdef
  have hdroplen : (hist.drop (A + 1)).length = hist.length - (A + 1) := by simp
  have hbounds := insertScan_bounds A (hist.drop (A + 1)) (A + 1) (A + 1) (Nat.le_refl _)
  have hple : p ≤ hist.length := by
    have := hbounds.2
    rw [hdroplen] at this
    rw [hpdef]
    unfold insertIdx
    omega
  have hAltp : A < p := by
    have := hbounds.1
    rw [hpdef]
    unfold insertIdx
    omega
  refine ⟨?_, ?_, ⟨rfl, rfl⟩, ?_, ⟨hAltp, hple⟩, ?_, ?_, ?_⟩
  · intro a ha
    rw [hAdef]
    simp [saveAnchor, hitem, ha]
  · intro ha
    rw [hAdef]
    simp [saveAnchor, hitem, ha]
  · show (spliceInsert hist p _)[p]? = _
    exact spliceInsert_getElem_self hist p _ hple
  · rcases insertScan_mem A (hist.drop (A + 1)) (A + 1) (A + 1) with h | ⟨k, hk, hv, mk2, hmk, hb2⟩
    · left
      rw [hpdef]
      unfold insertIdx
      exact h
    · right
      refine ⟨mk2, ?_, hb2⟩
      have hpv : p = A + 1 + k + 1 := by
        rw [hpdef]; unfold insertIdx; exact hv
      rw [List.getElem?_drop] at hmk
      rw [hpv]
      simpa using hmk
  · intro j mj hAj hjp hj
    have hk : (hist.drop (A + 1))[j - (A + 1)]? = some mj := by
      rw [List.getElem?_drop]
      have : A + 1 + (j - (A + 1)) = j := by omega
      rw [this]
      exact hj
    refine insertScan_tagged_below A (hist.drop (A + 1)) (A + 1) (A + 1) (Nat.le_refl _)
      (j - (A + 1)) mj hk ?_
    have : A + 1 + (j - (A + 1)) = j := by omega
    rw [this]
    rw [hpdef] at hjp
    unfold insertIdx at hjp
    exact hjp
  · intro j mj hpj hj hcontig
    have hk : (hist.drop (A + 1))[j - (A + 1)]? = some mj := by
      rw [List.getElem?_drop]
      have : A + 1 + (j - (A + 1)) = j := by omega
      rw [this]
      exact hj
    refine insertScan_maximal A (hist.drop (A + 1)) (A + 1) (A + 1) (Nat.le_refl _)
      (j - (A + 1)) mj hk ?_ ?_
    · have : A + 1 + (j - (A + 1)) = j := by omega
      rw [this]
      rw [hpdef] at hpj
      unfold insertIdx at hpj
      exact hpj
    · intro k2 mk3 hk2 hlk3
      rw [List.getElem?_drop] at hlk3
      exact hcontig (A + 1 + k2) mk3 (by omega) (by omega) hlk3

/-- C8 counterexample: history `[user "orig", assistant "r",
user "old" tagged {branch_of: 0, branch_version: 2}]`, editing index 0
(anchor 0).  The last entry tagged `branch_of === 0` sits at index 2,
so the claim requires insertion at index 3; the scan, however, breaks
at index 1 (no numeric `branch_of`) and inserts at index 1. -/
theorem saveEdit_insert_position_counterexample :
    ((saveEdit [⟨"user", "orig", none, none, false, none⟩,
        ⟨"assistant", "r", none, none, false, none⟩,
        ⟨"user", "old", some 0, some 2, false, none⟩] none 0 "X").2.2 = 1) ∧
    (([⟨"user", "orig", none, none, false, none⟩,
        ⟨"assistant", "r", none, none, false, none⟩,
        ⟨"user", "old", some 0, some 2, false, none⟩] : List Message)[2]?.map Message.branch_of
      = some (some 0)) ∧
    ((saveEdit [⟨"user", "orig", none, none, false, none⟩,
        ⟨"assistant", "r", none, none, false, none⟩,
        ⟨"user", "old", some 0, some 2, false, none⟩] none 0 "X").1.map Message.content
      = ["orig", "X", "r", "old"]) ∧
    ((saveEdit [⟨"user", "orig", none, none, false, none⟩,
        ⟨"assistant", "r", none, none, false, none⟩,
        ⟨"user", "old", some 0, some 2, false, none⟩] none 0 "X").2.2 ≠ 2 + 1) := by
  refine ⟨?_, ?_, ?_, ?_⟩ <;> decide

/-- Witness for C8's amended theorem: editing index 0 of a history
whose anchor cluster is `[tagged(0,2)]` followed by an untagged
assistant reply inserts the new version at index 2, directly behind the
cluster. -/
theorem saveEdit_spec_witness :
    (([⟨"user", "q0", none, none, false, none⟩,
        ⟨"user", "e1", some 0, some 2, true, some 0⟩,
        ⟨"assistant", "r", none, none, false, none⟩] : List Message)[0]? =
      some ⟨"user", "q0", none, none, false, none⟩) ∧
    (saveAnchor [⟨"user", "q0", none, none, false, none⟩,
        ⟨"user", "e1", some 0, some 2, true, some 0⟩,
        ⟨"assistant", "r", none, none, false, none⟩] 0 <
      ([⟨"user", "q0", none, none, false, none⟩,
        ⟨"user", "e1", some 0, some 2, true, some 0⟩,
        ⟨"assistant", "r", none, none, false, none⟩] : List Message).length) ∧
    ((saveEdit [⟨"user", "q0", none, none, false, none⟩,
        ⟨"user", "e1", some 0, some 2, true, some 0⟩,
        ⟨"assistant", "r", none, none, false, none⟩] none 0 "new").1[
      insertIdx [⟨"user", "q0", none, none, false, none⟩,
        ⟨"user", "e1", some 0, some 2, true, some 0⟩,
        ⟨"assistant", "r", none, none, false, none⟩]
        (saveAnchor [⟨"user", "q0", none, none, false, none⟩,
          ⟨"user", "e1", some 0, some 2, true, some 0⟩,
          ⟨"assistant", "r", none, none, false, none⟩] 0)]? =
      some ⟨"user", "new",
        some (saveAnchor [⟨"user", "q0", none, none, false, none⟩,
          ⟨"user", "e1", some 0, some 2, true, some 0⟩,
          ⟨"assistant", "r", none, none, false, none⟩] 0),
        some (bumpBranch none (saveAnchor [⟨"user", "q0", none, none, false, none⟩,
          ⟨"user", "e1", some 0, some 2, true, some 0⟩,
          ⟨"assistant", "r", none, none, false, none⟩] 0)).active,
        true,
        some (saveAnchor [⟨"user", "q0", none, none, false, none⟩,
          ⟨"user", "e1", some 0, some 2, true, some 0⟩,
          ⟨"assistant", "r", none, none, false, none⟩] 0)⟩) :=
  ⟨by decide, by decide,
    (saveEdit_spec [⟨"user", "q0", none, none, false, none⟩,
        ⟨"user", "e1", some 0, some 2, true, some 0⟩,
        ⟨"assistant", "r", none, none, false, none⟩] none 0 "new"
      ⟨"user", "q0", none, none, false, none⟩ (by decide) (by decide)).2.2.2.1⟩

/-! ## C1: `renderChat` — the reconstructed visible view -/

/-- The predicate of `hist.findIndex((x, j) => j > i && x.branch_of === i
&& x.branch_version === br.active && x.role === "user")` used at the
anchor slot. -/
def vUserPred (anchor active : Nat) (p : Nat × Message) : Bool :=
  decide (anchor < p.1) && decide (p.2.branch_of = some anchor) &&
    decide (p.2.branch_version = some active) && decide (p.2.role = "user")

/-- The `findIndex` call of the anchor slot: index of the first later
user message carrying `{branch_of: anchor, branch_version: active}`. -/
def findVUser (hist : List Message) (anchor active : Nat) : Option Nat :=
  (hist.enum.find? (vUserPred anchor active)).map Prod.fst

theorem vUserPred_iff (anchor active u : Nat) (m : Message) :
    vUserPred anchor active (u, m) = true ↔
      anchor < u ∧ m.branch_of = some anchor ∧ m.branch_version = some active ∧
        m.role = "user" := by
  simp only [vUserPred, Bool.and_eq_true, decide_eq_true_eq]
  tauto

theorem findVUser_some_spec (hist : List Message) (anchor active v : Nat)
    (h : findVUser hist anchor active = some v) :
    anchor < v ∧ ∃ vm : Message, hist[v]? = some vm ∧ vm.branch_of = some anchor ∧
      vm.branch_version = some active ∧ vm.role = "user" := by
  unfold findVUser at h
  cases hf : hist.enum.find? (vUserPred anchor active) with
  | none => rw [hf] at h; exact Option.noConfusion h
  | some pr =>
    rw [hf] at h
    have hv : pr.1 = v := by simpa using h
    have hpred := List.find?_some hf
    have hmem := List.mem_of_find?_eq_some hf
    have hget : hist[pr.1]? = some pr.2 := List.mem_enum_iff_getElem?.mp hmem
    rcases (vUserPred_iff anchor active pr.1 pr.2).mp (by simpa using hpred) with ⟨h1, h2, h3, h4⟩
    rw [hv] at hget h1
    exact ⟨h1, pr.2, hget, h2, h3, h4⟩

theorem find?_enumFrom_first {α : Type} (p : Nat × α → Bool) :
    ∀ (l : List α) (n : Nat) (pr : Nat × α), (l.enumFrom n).find? p = some pr →
      ∀ (u : Nat) (x : α), n ≤ u → u < pr.1 → l[u - n]? = some x → p (u, x) = false := by
  intro l
  induction l with
  | nil => intro n pr h; exact absurd h (by simp)
  | cons a l ih =>
    intro n pr h u x hnu hu hx
    rw [List.enumFrom_cons] at h
    by_cases hp : p (n, a) = true
    · rw [List.find?_cons_of_pos _ hp] at h
      injection h with h
      rw [← h] at hu
      simp at hu
      omega
    · rw [List.find?_cons_of_neg _ (by simpa using hp)] at h
      by_cases hun : u = n
      · have hx0 : x = a := by
          rw [hun] at hx
          simp at hx
          exact hx.symm
        rw [hun, hx0]
        simpa using hp
      · have hn1 : n + 1 ≤ u := by omega
        have hx2 : l[u - (n + 1)]? = some x := by
          have heq : u - n = (u - (n + 1)) + 1 := by omega
          rw [heq] at hx
          simpa using hx
        exact ih (n + 1) pr h u x hn1 hu hx2

theorem findVUser_first (hist : List Message) (anchor active v : Nat)
    (h : findVUser hist anchor active = some v) :
    ∀ (u : Nat) (um : Message), u < v → hist[u]? = some um →
      vUserPred anchor active (u, um) = false := by
  unfold findVUser at h
  cases hf : hist.enum.find? (vUserPred anchor active) with
  | none => rw [hf] at h; exact Option.noConfusion h
  | some pr =>
    rw [hf] at h
    have hv : pr.1 = v := by simpa using h
    intro u um hu hum
    have hf2 : (hist.enumFrom 0).find? (vUserPred anchor active) = some pr := hf
    have := find?_enumFrom_first (vUserPred anchor active) hist 0 pr hf2 u um
      (Nat.zero_le u) (by omega) (by simpa using hum)
    exact this

theorem findVUser_none_spec (hist : List Message) (anchor active : Nat)
    (h : findVUser hist anchor active = none) :
    ∀ (u : Nat) (um : Message), hist[u]? = some um →
      vUserPred anchor active (u, um) = false := by
  unfold findVUser at h
  cases hf : hist.enum.find? (vUserPred anchor active) with
  | some pr => rw [hf] at h; exact Option.noConfusion h
  | none =>
    intro u um hum
    have hmem : (u, um) ∈ hist.enum := List.mem_enum_iff_getElem?.mpr (by simpa using hum)
    have := List.find?_eq_none.mp hf (u, um) hmem
    simpa using this

/-- One loop iteration of `renderChat` under a branch context: what
`addMessage` gets called with for loop position `i` holding message
`m` — `some (renderedIdx, renderedMsg)`, or `none` when the message is
hidden.  `skip` is the `skipIdx` value (precomputed: it is only
consulted for `i > anchor`, by which point the anchor iteration has
set it). -/
def emit (full : List Message) (b : Branch) (skip : Option Nat) (i : Nat) (m : Message) :
    Option (Nat × Message) :=
  if i < b.anchor then some (i, m)
  else if i = b.anchor then
    (if b.active = 1 then some (i, m)
     else
       match skip with
       | some v =>
         (match full[v]? with
          | some vm => some (v, vm)
          | none => some (i, m))
       | none => some (i, m))
  else
    (if b.active = 1 then
      (if m.branch_of = some b.anchor then none else some (i, m))
     else
       (if skip = some i then none
        else if m.branch_of = some b.anchor ∧ m.branch_version = some b.active then some (i, m)
        else none))

/-- The `renderChat` loop: the sequence of `addMessage` calls as
`(loop position, rendered index, rendered message)` triples.  Without a
valid branch context every message is rendered at its own index. -/
def renderChat (hist : List Message) (br : Option Branch) : List (Nat × Nat × Message) :=
  match br with
  | none => hist.enum.map (fun p => (p.1, p.1, p.2))
  | some b =>
    hist.enum.filterMap (fun p =>
      (emit hist b (if b.active = 1 then none else findVUser hist b.anchor b.active) p.1 p.2).map
        (fun out => (p.1, out.1, out.2)))

theorem mem_renderChat_iff (hist : List Message) (b : Branch) (s k : Nat) (m2 : Message) :
    (s, k, m2) ∈ renderChat hist (some b) ↔
      ∃ msl : Message, hist[s]? = some msl ∧
        emit hist b (if b.active = 1 then none else findVUser hist b.anchor b.active) s msl =
          some (k, m2) := by
  unfold renderChat
  rw [List.mem_filterMap]
  constructor
  · rintro ⟨p, hp, hemit⟩
    rw [Option.map_eq_some'] at hemit
    obtain ⟨out, hout, heq⟩ := hemit
    have h1 : p.1 = s := congrArg Prod.fst heq
    have h2 : out.1 = k := congrArg (fun t => t.2.1) heq
    have h3 : out.2 = m2 := congrArg (fun t => t.2.2) heq
    have hget : hist[p.1]? = some p.2 := List.mem_enum_iff_getElem?.mp hp
    rw [h1] at hget hout
    refine ⟨p.2, hget, ?_⟩
    rw [hout, ← h2, ← h3]
  · rintro ⟨msl, hmsl, hemit⟩
    refine ⟨(s, msl), List.mem_enum_iff_getElem?.mpr (by simpa using hmsl), ?_⟩
    rw [hemit]
    rfl

theorem emit_lt (full : List Message) (b : Branch) (skip : Option Nat) (i : Nat) (m : Message)
    (hlt : i < b.anchor) : emit full b skip i m = some (i, m) := by
  unfold emit
  rw [if_pos hlt]

theorem emit_gt_one (full : List Message) (b : Branch) (skip : Option Nat) (i : Nat) (m : Message)
    (hgt : b.anchor < i) (hact : b.active = 1) :
    emit full b skip i m = if m.branch_of = some b.anchor then none else some (i, m) := by
  unfold emit
  rw [if_neg (by omega), if_neg (by omega), if_pos hact]

theorem emit_gt_many (full : List Message) (b : Branch) (skip : Option Nat) (i : Nat) (m : Message)
    (hgt : b.anchor < i) (hact : b.active ≠ 1) :
    emit full b skip i m =
      if skip = some i then none
      else if m.branch_of = some b.anchor ∧ m.branch_version = some b.active then some (i, m)
      else none := by
  unfold emit
  rw [if_neg (by omega), if_neg (by omega), if_neg hact]

theorem emit_anchor_many_found (full : List Message) (b : Branch) (skip : Option Nat)
    (m vm : Message) (v : Nat) (hact : b.active ≠ 1) (hskip : skip = some v)
    (hvm : full[v]? = some vm) : emit full b skip b.anchor m = some (v, vm) := by
  unfold emit
  rw [if_neg (lt_irrefl _), if_pos rfl, if_neg hact, hskip]
  simp [hvm]

theorem emit_anchor_many_none (full : List Message) (b : Branch) (skip : Option Nat) (m : Message)
    (hact : b.active ≠ 1) (hskip : skip = none) : emit full b skip b.anchor m = some (b.anchor, m) := by
  unfold emit
  rw [if_neg (lt_irrefl _), if_pos rfl, if_neg hact, hskip]

theorem countP_filterMap {α β : Type} (f : α → Option β) (p : β → Bool) (l : List α) :
    (l.filterMap f).countP p = l.countP (fun a => ((f a).map p).getD false) := by
  induction l with
  | nil => rfl
  | cons a l ih =>
    cases hfa : f a with
    | none => simp [List.filterMap_cons, hfa, List.countP_cons, ih]
    | some bb =>
      by_cases hp : p bb = true
      · simp [List.filterMap_cons, hfa, List.countP_cons, hp, ih]
      · simp [List.filterMap_cons, hfa, List.countP_cons, hp, ih]

theorem countP_eq_range (len a : Nat) (h : a < len) :
    (List.range len).countP (fun n => decide (n = a)) = 1 := by
  induction len with
  | zero => omega
  | succ k ih =>
    rw [List.range_succ, List.countP_append]
    by_cases hk : a = k
    · have h0 : (List.range k).countP (fun n => decide (n = a)) = 0 := by
        rw [List.countP_eq_zero]
        intro x hx
        have := List.mem_range.mp hx
        simp
        omega
      rw [h0]
      simp [hk]
    · have h1 := ih (by omega)
      rw [h1]
      have hka : k ≠ a := fun hc => hk hc.symm
      simp [List.countP_cons, hka]

/-- C1 (amended): under a valid branch state, a message at index
`i > anchor` is rendered at its own slot iff either `active = 1` and it
is not tagged with this `branch_of`, or `active > 1` and it carries
`branch_of = anchor ∧ branch_version = active` and it is not the slot
consumed by the anchor substitution; when `active > 1` the anchor slot
is rendered using the **first** later user message tagged
`{branch_of: anchor, branch_version: active}` (falling back to the
anchor's own content if none exists); and that substituted message's
index appears exactly once in the rendered sequence — it is never
rendered a second time. -/
theorem renderChat_visibility (hist : List Message) (b : Branch) :
    (∀ (i : Nat) (m : Message), b.anchor < i → hist[i]? = some m → 1 ≤ b.active →
      ((i, i, m) ∈ renderChat hist (some b) ↔
        ((b.active = 1 ∧ m.branch_of ≠ some b.anchor) ∨
         (1 < b.active ∧ m.branch_of = some b.anchor ∧ m.branch_version = some b.active ∧
          findVUser hist b.anchor b.active ≠ some i)))) ∧
    (∀ (v : Nat) (vm : Message), 1 < b.active →
      findVUser hist b.anchor b.active = some v → hist[v]? = some vm →
      (b.anchor, v, vm) ∈ renderChat hist (some b)) ∧
    (∀ am : Message, 1 < b.active → hist[b.anchor]? = some am →
      findVUser hist b.anchor b.active = none →
      (b.anchor, b.anchor, am) ∈ renderChat hist (some b)) ∧
    (∀ v : Nat, 1 < b.active → findVUser hist b.anchor b.active = some v →
      (renderChat hist (some b)).countP (fun t => decide (t.2.1 = v)) = 1) := by
  refine ⟨?_, ?_, ?_, ?_⟩
  · intro i m hgt hm hact1
    rw [mem_renderChat_iff]
    by_cases hone : b.active = 1
    · constructor
      · rintro ⟨msl, hmsl, hemit⟩
        have hmm : msl = m := by
          rw [hm] at hmsl
          exact (Option.some_inj.mp hmsl).symm
        rw [hmm, emit_gt_one hist b _ i m hgt hone] at hemit
        by_cases hbo : m.branch_of = some b.anchor
        · rw [if_pos hbo] at hemit
          exact absurd hemit (by simp)
        · exact Or.inl ⟨hone, hbo⟩
      · rintro (⟨_, hbo⟩ | ⟨hlt2, _, _, _⟩)
        · exact ⟨m, hm, by rw [emit_gt_one hist b _ i m hgt hone, if_neg hbo]⟩
        · omega
    · have hlt2 : 1 < b.active := by omega
      have hskip : (if b.active = 1 then none else findVUser hist b.anchor b.active) =
          findVUser hist b.anchor b.active := if_neg hone
      constructor
      · rintro ⟨msl, hmsl, hemit⟩
        have hmm : msl = m := by
          rw [hm] at hmsl
          exact (Option.some_inj.mp hmsl).symm
        rw [hmm, emit_gt_many hist b _ i m hgt hone, hskip] at hemit
        by_cases hsk : findVUser hist b.anchor b.active = some i
        · rw [if_pos hsk] at hemit
          exact absurd hemit (by simp)
        · rw [if_neg hsk] at hemit
          by_cases htag : m.branch_of = some b.anchor ∧ m.branch_version = some b.active
          · exact Or.inr ⟨hlt2, htag.1, htag.2, hsk⟩
          · rw [if_neg htag] at hemit
            exact absurd hemit (by simp)
      · rintro (⟨h1, _⟩ | ⟨_, hbo, hbv, hsk⟩)
        · exact absurd h1 hone
        · refine ⟨m, hm, ?_⟩
          rw [emit_gt_many hist b _ i m hgt hone, hskip, if_neg hsk, if_pos ⟨hbo, hbv⟩]
  · intro v vm hlt2 hfv hvm
    rw [mem_renderChat_iff]
    obtain ⟨hav, _, _, _⟩ := findVUser_some_spec hist b.anchor b.active v hfv
    have hvlen : v < hist.length := (List.getElem?_eq_some.mp hvm).1
    have halen : b.anchor < hist.length := by omega
    have hone : b.active ≠ 1 := by omega
    refine ⟨hist[b.anchor], List.getElem?_eq_getElem halen, ?_⟩
    exact emit_anchor_many_found hist b _ _ vm v hone (by rw [if_neg hone, hfv]) hvm
  · intro am hlt2 ham hfv
    rw [mem_renderChat_iff]
    have hone : b.active ≠ 1 := by omega
    exact ⟨am, ham, emit_anchor_many_none hist b _ am hone (by rw [if_neg hone, hfv])⟩
  · intro v hlt2 hfv
    have hone : b.active ≠ 1 := by omega
    obtain ⟨hav, vm, hvm, hbo, hbv, hrole⟩ := findVUser_some_spec hist b.anchor b.active v hfv
    have hvlen : v < hist.length := (List.getElem?_eq_some.mp hvm).1
    have halen : b.anchor < hist.length := by omega
    have hskip : (if b.active = 1 then none else findVUser hist b.anchor b.active) = some v := by
      rw [if_neg hone, hfv]
    unfold renderChat
    rw [countP_filterMap]
    have hpt : ∀ pr ∈ hist.enum,
        ((((emit hist b (if b.active = 1 then none else findVUser hist b.anchor b.active)
            pr.1 pr.2).map (fun out => (pr.1, out.1, out.2))).map
          (fun t => decide (t.2.1 = v))).getD false) = decide (pr.1 = b.anchor) := by
      intro pr hpr
      have hget : hist[pr.1]? = some pr.2 := List.mem_enum_iff_getElem?.mp hpr
      rcases Nat.lt_trichotomy pr.1 b.anchor with hc | hc | hc
      · rw [emit_lt hist b _ pr.1 pr.2 hc]
        have h1 : pr.1 ≠ v := by omega
        have h2 : pr.1 ≠ b.anchor := by omega
        simp [h1, h2]
      · have hx := emit_anchor_many_found hist b
          (if b.active = 1 then none else findVUser hist b.anchor b.active) pr.2 vm v hone hskip hvm
        rw [hc, hx]
        simp
      · rw [emit_gt_many hist b _ pr.1 pr.2 hc hone, hskip]
        have h2 : pr.1 ≠ b.anchor := by omega
        by_cases hpv : pr.1 = v
        · rw [if_pos (by rw [hpv])]
          simp [h2]
        · rw [if_neg (fun hcc => hpv (by injection hcc with hcc; exact hcc.symm))]
          by_cases htag : pr.2.branch_of = some b.anchor ∧ pr.2.branch_version = some b.active
          · rw [if_pos htag]
            simp [hpv, h2]
          · rw [if_neg htag]
            simp [h2]
    rw [List.countP_congr (fun pr hpr => by rw [hpt pr hpr])]
    have hcomp : (fun pr : Nat × Message => decide (pr.1 = b.anchor)) =
        ((fun n => decide (n = b.anchor)) ∘ Prod.fst) := rfl
    rw [hcomp, ← List.countP_map, List.enum_map_fst]
    exact countP_eq_range hist.length b.anchor halen

/-- C1 counterexample: with two later user messages both tagged
`{branch_of: 0, branch_version: 2}` (reachable by editing a second
anchor and then re-editing the first, which resets the branch state and
mints version 2 again), the first is substituted at the anchor slot and
the second is still rendered at its own slot — the visible sequence
contains two messages with the same `branch_of`/`branch_version` pair,
so "exactly one wins" fails. -/
theorem renderChat_duplicate_pair_counterexample :
    (renderChat [⟨"user", "orig", none, none, false, none⟩,
        ⟨"user", "edit A", some 0, some 2, true, some 0⟩,
        ⟨"user", "edit B", some 0, some 2, true, some 0⟩] (some ⟨0, 2, 2⟩) =
      [(0, 1, ⟨"user", "edit A", some 0, some 2, true, some 0⟩),
       (2, 2, ⟨"user", "edit B", some 0, some 2, true, some 0⟩)]) ∧
    ((renderChat [⟨"user", "orig", none, none, false, none⟩,
        ⟨"user", "edit A", some 0, some 2, true, some 0⟩,
        ⟨"user", "edit B", some 0, some 2, true, some 0⟩] (some ⟨0, 2, 2⟩)).countP
      (fun t => t.2.2.branch_of == some 0 && t.2.2.branch_version == some 2) = 2) := by
  refine ⟨?_, ?_⟩ <;> decide

/-- Witness for C1's amended theorem on a four-message history with one
edit cluster: the version-2 assistant reply is visible, the version-2
user message is substituted at the anchor slot, and its index 2 is
rendered exactly once. -/
theorem renderChat_visibility_witness :
    ((0 : Nat) < 3 ∧
      ([⟨"user", "q0", none, none, false, none⟩, ⟨"assistant", "r0", none, none, false, none⟩,
        ⟨"user", "e1", some 0, some 2, true, some 0⟩,
        ⟨"assistant", "r1", some 0, some 2, false, none⟩] : List Message)[3]? =
        some ⟨"assistant", "r1", some 0, some 2, false, none⟩ ∧
      1 ≤ (⟨0, 2, 2⟩ : Branch).active ∧
      ((3, 3, (⟨"assistant", "r1", some 0, some 2, false, none⟩ : Message)) ∈
        renderChat [⟨"user", "q0", none, none, false, none⟩,
          ⟨"assistant", "r0", none, none, false, none⟩,
          ⟨"user", "e1", some 0, some 2, true, some 0⟩,
          ⟨"assistant", "r1", some 0, some 2, false, none⟩] (some ⟨0, 2, 2⟩) ↔
        (((⟨0, 2, 2⟩ : Branch).active = 1 ∧
            (⟨"assistant", "r1", some 0, some 2, false, none⟩ : Message).branch_of ≠ some 0) ∨
         (1 < (⟨0, 2, 2⟩ : Branch).active ∧
          (⟨"assistant", "r1", some 0, some 2, false, none⟩ : Message).branch_of = some 0 ∧
          (⟨"assistant", "r1", some 0, some 2, false, none⟩ : Message).branch_version = some 2 ∧
          findVUser [⟨"user", "q0", none, none, false, none⟩,
            ⟨"assistant", "r0", none, none, false, none⟩,
            ⟨"user", "e1", some 0, some 2, true, some 0⟩,
            ⟨"assistant", "r1", some 0, some 2, false, none⟩] 0 2 ≠ some 3)))) ∧
    (1 < (⟨0, 2, 2⟩ : Branch).active ∧
      findVUser [⟨"user", "q0", none, none, false, none⟩,
        ⟨"assistant", "r0", none, none, false, none⟩,
        ⟨"user", "e1", some 0, some 2, true, some 0⟩,
        ⟨"assistant", "r1", some 0, some 2, false, none⟩] 0 2 = some 2 ∧
      (renderChat [⟨"user", "q0", none, none, false, none⟩,
        ⟨"assistant", "r0", none, none, false, none⟩,
        ⟨"user", "e1", some 0, some 2, true, some 0⟩,
        ⟨"assistant", "r1", some 0, some 2, false, none⟩] (some ⟨0, 2, 2⟩)).countP
        (fun t => decide (t.2.1 = 2)) = 1) := by
  refine ⟨⟨by decide, by decide, by decide, ?_⟩, by decide, by decide, ?_⟩
  · exact (renderChat_visibility _ ⟨0, 2, 2⟩).1 3 _ (by decide) (by decide) (by decide)
  · exact (renderChat_visibility _ ⟨0, 2, 2⟩).2.2.2 2 (by decide) (by decide)

end Gaia